import Mathlib

/-!
Verification of the asdfw command-resolution and shim-management core.

The development shallowly embeds the Rust sources:
* `tool_versions.rs` (version cascade, tool-versions file parsing and saving),
* `shims.rs` (shim database save/load, `resolve_command`, scanning installed
  tools, `create_shims`),
* `executable_context.rs` (`ExecutableContext::new`, environment building),
* `plugins/plugin.rs` (`Plugin::new`, plugin configuration defaults).

Files are modelled as character lists, directory listings and maps as
association lists, and the process environment as an association list from
variable names to values.  Fallible operations return `Except`.
-/

namespace Asdfw

/-! ## Shared character-list utilities -/

/-- Split a list at the first occurrence of `c`, mirroring Rust's
`str::split_once`: `none` when `c` does not occur, otherwise the parts
strictly before and strictly after the first occurrence. -/
def splitOnceChar (c : Char) : List Char → Option (List Char × List Char)
  | [] => none
  | x :: xs =>
    if x = c then some ([], xs)
    else
      match splitOnceChar c xs with
      | none => none
      | some (a, b) => some (x :: a, b)

theorem splitOnceChar_cons (c x : Char) (xs : List Char) :
    splitOnceChar c (x :: xs) =
      if x = c then some ([], xs)
      else
        match splitOnceChar c xs with
        | none => none
        | some (a, b) => some (x :: a, b) := rfl

theorem splitOnceChar_eq_none {c : Char} {l : List Char} :
    splitOnceChar c l = none ↔ c ∉ l := by
  induction l with
  | nil => simp [splitOnceChar]
  | cons x xs ih =>
    rw [splitOnceChar_cons]
    by_cases hx : x = c
    · subst hx
      simp
    · rw [if_neg hx]
      cases hsp : splitOnceChar c xs with
      | none =>
        have hxs : c ∉ xs := ih.mp hsp
        simp only [List.mem_cons, true_iff]
        intro hmem
        rcases hmem with h | h
        · exact hx h.symm
        · exact hxs h
      | some p =>
        have hxs : c ∈ xs := by
          by_contra hc
          rw [ih.mpr hc] at hsp
          cases hsp
        cases p with
        | mk a b =>
          simp only [List.mem_cons]
          constructor
          · intro h
            cases h
          · intro h
            exact absurd (Or.inr hxs) h

theorem splitOnceChar_eq_some {c : Char} {l a b : List Char}
    (h : splitOnceChar c l = some (a, b)) : l = a ++ c :: b ∧ c ∉ a := by
  induction l generalizing a b with
  | nil => simp [splitOnceChar] at h
  | cons x xs ih =>
    rw [splitOnceChar_cons] at h
    by_cases hx : x = c
    · subst hx
      rw [if_pos rfl] at h
      rcases h with ⟨⟩
      simp
    · rw [if_neg hx] at h
      cases hsp : splitOnceChar c xs with
      | none =>
        rw [hsp] at h
        cases h
      | some p =>
        cases p with
        | mk a' b' =>
          rw [hsp] at h
          rcases h with ⟨⟩
          rcases ih hsp with ⟨hl, hc⟩
          subst hl
          refine ⟨by simp, ?_⟩
          intro hmem
          rcases List.mem_cons.mp hmem with h1 | h2
          · exact hx h1.symm
          · exact hc h2

theorem splitOnceChar_append {c : Char} {a : List Char} (b : List Char)
    (ha : c ∉ a) : splitOnceChar c (a ++ c :: b) = some (a, b) := by
  induction a with
  | nil => simp [splitOnceChar]
  | cons x xs ih =>
    have hx : x ≠ c := fun h => ha (h ▸ List.mem_cons_self x xs)
    have hxs : c ∉ xs := fun h => ha (List.mem_cons_of_mem x h)
    rw [List.cons_append, splitOnceChar_cons, if_neg hx, ih hxs]

/-- Remove a single trailing carriage return, as `BufRead::lines` does after
stripping the newline byte of a `\r\n` line ending. -/
def stripCrEnd (l : List Char) : List Char :=
  if l.getLast? = some (Char.ofNat 13) then l.dropLast else l

theorem stripCrEnd_append_cr (l : List Char) :
    stripCrEnd (l ++ [Char.ofNat 13]) = l := by
  simp [stripCrEnd]

theorem stripCrEnd_subset {l : List Char} : stripCrEnd l ⊆ l := by
  unfold stripCrEnd
  by_cases h : l.getLast? = some (Char.ofNat 13)
  · rw [if_pos h]
    exact (List.dropLast_sublist l).subset
  · rw [if_neg h]
    exact List.Subset.refl l

/-- Accumulating worker for `lines`: `cur` holds the reversed characters of
the line fragment read so far. -/
def linesAux (cur : List Char) : List Char → List (List Char)
  | [] => if cur = [] then [] else [cur.reverse]
  | ch :: cs =>
    if ch = Char.ofNat 10 then stripCrEnd cur.reverse :: linesAux [] cs
    else linesAux (ch :: cur) cs

/-- The lines of a file's contents, mirroring Rust `BufRead::lines`: split at
each newline, strip a carriage return preceding the newline, and emit a final
fragment only when it is nonempty. -/
def lines (cs : List Char) : List (List Char) := linesAux [] cs

theorem linesAux_cons (cur : List Char) (x : Char) (cs : List Char) :
    linesAux cur (x :: cs) =
      if x = Char.ofNat 10 then stripCrEnd cur.reverse :: linesAux [] cs
      else linesAux (x :: cur) cs := rfl

theorem linesAux_append_line {l : List Char} (cur rest : List Char)
    (hl : Char.ofNat 10 ∉ l) :
    linesAux cur (l ++ Char.ofNat 10 :: rest) =
      stripCrEnd (cur.reverse ++ l) :: linesAux [] rest := by
  induction l generalizing cur with
  | nil => simp [linesAux_cons]
  | cons x xs ih =>
    have hx : x ≠ Char.ofNat 10 := fun h => hl (h ▸ List.mem_cons_self x xs)
    have hxs : Char.ofNat 10 ∉ xs := fun h => hl (List.mem_cons_of_mem x h)
    rw [List.cons_append, linesAux_cons, if_neg hx, ih (x :: cur) hxs]
    simp

theorem lines_crlf_line {l : List Char} (rest : List Char)
    (hl : Char.ofNat 10 ∉ l) :
    lines (l ++ Char.ofNat 13 :: Char.ofNat 10 :: rest) =
      l :: lines rest := by
  have h1 : l ++ Char.ofNat 13 :: Char.ofNat 10 :: rest =
      (l ++ [Char.ofNat 13]) ++ Char.ofNat 10 :: rest := by simp
  have h2 : Char.ofNat 10 ∉ l ++ [Char.ofNat 13] := by
    intro h
    rcases List.mem_append.mp h with h | h
    · exact hl h
    · simp at h
  unfold lines
  rw [h1, linesAux_append_line [] _ h2]
  simp [stripCrEnd_append_cr]

theorem mem_linesAux_no_newline {cur cs : List Char} {l : List Char}
    (hcur : Char.ofNat 10 ∉ cur) (hmem : l ∈ linesAux cur cs) :
    Char.ofNat 10 ∉ l := by
  induction cs generalizing cur with
  | nil =>
    unfold linesAux at hmem
    by_cases h : cur = []
    · simp [h] at hmem
    · rw [if_neg h] at hmem
      simp only [List.mem_singleton] at hmem
      subst hmem
      simpa using hcur
  | cons x xs ih =>
    rw [linesAux_cons] at hmem
    by_cases hx : x = Char.ofNat 10
    · rw [if_pos hx] at hmem
      rcases List.mem_cons.mp hmem with h | h
      · subst h
        intro hc
        exact hcur (by simpa using stripCrEnd_subset hc)
      · exact ih (by simp) h
    · rw [if_neg hx] at hmem
      refine ih ?_ hmem
      intro hc
      rcases List.mem_cons.mp hc with h | h
      · exact hx h.symm
      · exact hcur h

theorem mem_lines_no_newline {cs l : List Char} (h : l ∈ lines cs) :
    Char.ofNat 10 ∉ l :=
  mem_linesAux_no_newline (by simp) h

/-! ## tool_versions.rs: parsing, searching, the version cascade, saving -/

/-- Errors of the tool-versions layer: a malformed line carries the offending
line, and `ioError` stands for a failed `File::open`/`fs::read`. -/
inductive VErr where
  | invalidLine (line : List Char)
  | ioError
  deriving DecidableEq, Repr

/-- Embeds `parse_line` of `tool_versions.rs`: split on the first space
(U+0020); both halves must be nonempty and the version half must not contain
a further space. -/
def parse_line (line : List Char) : Except VErr (List Char × List Char) :=
  match splitOnceChar (Char.ofNat 32) line with
  | none => .error (.invalidLine line)
  | some (tool, ver) =>
    if tool = [] ∨ ver = [] then .error (.invalidLine line)
    else if Char.ofNat 32 ∈ ver then .error (.invalidLine line)
    else .ok (tool, ver)

/-- Embeds the loop of `search_tool_in_file`: parse each line in order and
return the version of the first line whose tool matches; a malformed line
aborts the read at the point it is reached. -/
def search_tool_in_lines (tool : List Char) :
    List (List Char) → Except VErr (Option (List Char))
  | [] => .ok none
  | l :: rest =>
    match parse_line l with
    | .error e => .error e
    | .ok (t, v) =>
      if t = tool then .ok (some v) else search_tool_in_lines tool rest

/-- Embeds `search_tool_in_file` including the initial `File::open`, which
fails when the file is absent. -/
def search_tool_in_file (tool : List Char) (file : Option (List Char)) :
    Except VErr (Option (List Char)) :=
  match file with
  | none => .error .ioError
  | some contents => search_tool_in_lines tool (lines contents)

/-- Embeds `get_version_from_current_dir`: `dirs` lists, for the current
working directory followed by each ancestor up to the filesystem root, the
contents of its `.tool-versions` file (`none` when `path.is_file()` is
false there).  A present file is searched; a hit stops the walk, a clean
miss continues to the parent, a parse error aborts. -/
def get_version_from_current_dir (tool : List Char) :
    List (Option (List Char)) → Except VErr (Option (List Char))
  | [] => .ok none
  | none :: rest => get_version_from_current_dir tool rest
  | some contents :: rest =>
    match search_tool_in_lines tool (lines contents) with
    | .error e => .error e
    | .ok (some v) => .ok (some v)
    | .ok none => get_version_from_current_dir tool rest

/-- Association-list lookup for the process environment. -/
def lookupEnv (env : List (String × String)) (name : String) : Option String :=
  (env.find? (fun p => p.1 == name)).map (fun p => p.2)

/-- Embeds `env_var_name_for_tool`, `format!("ASDFW_{}_VERSION",
tool.to_uppercase())`, with uppercasing applied per character. -/
def env_var_name_for_tool (tool : String) : String :=
  String.mk ("ASDFW_".toList ++ tool.toList.map Char.toUpper ++ "_VERSION".toList)

/-- Embeds `get_version_from_env`: an unset variable is `None`, never an
error. -/
def get_version_from_env (env : List (String × String)) (tool : String) :
    Option String :=
  lookupEnv env (env_var_name_for_tool tool)

/-- Embeds `ToolVersions::get_version`: the cascade environment override →
upward directory walk → global file, stopping at the first hit.  The
`eval_if_none` chaining of the source evaluates the next stage only when the
previous one returned `Ok(None)`. -/
def get_version (env : List (String × String)) (tool : String)
    (dirs : List (Option (List Char))) (globalFile : Option (List Char)) :
    Except VErr (Option String) :=
  match get_version_from_env env tool with
  | some v => .ok (some v)
  | none =>
    match get_version_from_current_dir tool.toList dirs with
    | .error e => .error e
    | .ok (some v) => .ok (some (String.mk v))
    | .ok none =>
      match search_tool_in_file tool.toList globalFile with
      | .error e => .error e
      | .ok r => .ok (r.map String.mk)

/-- In-memory tool-versions data, embedding the `HashMap<String, String>` of
the source as an association list with unique keys. -/
abbrev TVData := List (List Char × List Char)

/-- Map insertion with `HashMap::insert` semantics: replace the value of an
existing key, otherwise add the pair. -/
def tvInsert : TVData → List Char → List Char → TVData
  | [], k, v => [(k, v)]
  | (k', v') :: rest, k, v =>
    if k' = k then (k, v) :: rest else (k', v') :: tvInsert rest k v

/-- Map lookup. -/
def tvLookup (k : List Char) : TVData → Option (List Char)
  | [] => none
  | (k', v') :: rest => if k' = k then some v' else tvLookup k rest

/-- Worker of `load_file`: parse each line and insert it into the map. -/
def loadLines (acc : TVData) : List (List Char) → Except VErr TVData
  | [] => .ok acc
  | l :: rest =>
    match parse_line l with
    | .error e => .error e
    | .ok (t, v) => loadLines (tvInsert acc t v) rest

/-- Embeds `load_file`: a missing file is an empty record, otherwise every
line is parsed and inserted. -/
def load_file (file : Option (List Char)) : Except VErr TVData :=
  match file with
  | none => .ok []
  | some contents => loadLines [] (lines contents)

/-- One output line, `format!("{} {}", k, v)`. -/
def formatLine (p : List Char × List Char) : List Char :=
  p.1 ++ Char.ofNat 32 :: p.2

/-- Join with a CRLF separator, `Vec::<String>::join("\r\n")`. -/
def joinCrlf : List (List Char) → List Char
  | [] => []
  | [l] => l
  | l :: l₂ :: rest => l ++ Char.ofNat 13 :: Char.ofNat 10 :: joinCrlf (l₂ :: rest)

/-- Embeds `save_file`: format every entry, append one empty string, and
join the lot with CRLF separators (so the file ends in a CRLF). -/
def save_file (data : TVData) : List Char :=
  joinCrlf (data.map formatLine ++ [[]])

/-- Embeds `set_tool_version`: load the target file (missing means empty),
upsert the pair, rewrite the whole file.  `save_local` and `save_global`
are both this function applied to their respective file. -/
def set_tool_version (file : Option (List Char)) (tool version : List Char) :
    Except VErr (List Char) :=
  match load_file file with
  | .error e => .error e
  | .ok data => .ok (save_file (tvInsert data tool version))

/-! ### Lemmas about line parsing and searching -/

theorem parse_line_ok_iff {line t v : List Char} :
    parse_line line = .ok (t, v) ↔
      line = t ++ Char.ofNat 32 :: v ∧ Char.ofNat 32 ∉ t ∧
        t ≠ [] ∧ v ≠ [] ∧ Char.ofNat 32 ∉ v := by
  constructor
  · intro h
    unfold parse_line at h
    cases hsp : splitOnceChar (Char.ofNat 32) line with
    | none =>
      rw [hsp] at h
      cases h
    | some p =>
      cases p with
      | mk t' v' =>
        rw [hsp] at h
        dsimp only at h
        by_cases h1 : t' = [] ∨ v' = []
        · rw [if_pos h1] at h
          cases h
        · rw [if_neg h1] at h
          by_cases h2 : Char.ofNat 32 ∈ v'
          · rw [if_pos h2] at h
            cases h
          · rw [if_neg h2] at h
            rcases h with ⟨⟩
            push_neg at h1
            rcases splitOnceChar_eq_some hsp with ⟨hl, hc⟩
            exact ⟨hl, hc, h1.1, h1.2, h2⟩
  · rintro ⟨hl, hct, ht, hv, hcv⟩
    subst hl
    unfold parse_line
    rw [splitOnceChar_append _ hct]
    dsimp only
    rw [if_neg (by simp [ht, hv]), if_neg hcv]

theorem parse_line_error {line : List Char} {e : VErr}
    (h : parse_line line = .error e) : e = .invalidLine line := by
  unfold parse_line at h
  cases hsp : splitOnceChar (Char.ofNat 32) line with
  | none =>
    rw [hsp] at h
    cases h
    rfl
  | some p =>
    cases p with
    | mk t' v' =>
      rw [hsp] at h
      dsimp only at h
      by_cases h1 : t' = [] ∨ v' = []
      · rw [if_pos h1] at h
        cases h
        rfl
      · rw [if_neg h1] at h
        by_cases h2 : Char.ofNat 32 ∈ v'
        · rw [if_pos h2] at h
          cases h
          rfl
        · rw [if_neg h2] at h
          cases h

theorem search_lines_hit {tool v hitline : List Char} (pre post : List (List Char))
    (hpre : ∀ l ∈ pre, ∃ t w, parse_line l = .ok (t, w) ∧ t ≠ tool)
    (hhit : parse_line hitline = .ok (tool, v)) :
    search_tool_in_lines tool (pre ++ hitline :: post) = .ok (some v) := by
  induction pre with
  | nil =>
    simp only [List.nil_append]
    unfold search_tool_in_lines
    rw [hhit]
    simp
  | cons l ls ih =>
    rcases hpre l (List.mem_cons_self l ls) with ⟨t, w, hok, hne⟩
    rw [List.cons_append]
    unfold search_tool_in_lines
    rw [hok]
    dsimp only
    rw [if_neg hne]
    exact ih (fun l hl => hpre l (List.mem_cons_of_mem _ hl))

theorem search_lines_miss {tool : List Char} {ls : List (List Char)}
    (h : ∀ l ∈ ls, ∃ t w, parse_line l = .ok (t, w) ∧ t ≠ tool) :
    search_tool_in_lines tool ls = .ok none := by
  induction ls with
  | nil => rfl
  | cons l ls ih =>
    rcases h l (List.mem_cons_self l ls) with ⟨t, w, hok, hne⟩
    unfold search_tool_in_lines
    rw [hok]
    dsimp only
    rw [if_neg hne]
    exact ih (fun l hl => h l (List.mem_cons_of_mem _ hl))

theorem search_lines_reached_error {tool bad : List Char} {e : VErr}
    (pre post : List (List Char))
    (hpre : ∀ l ∈ pre, ∃ t w, parse_line l = .ok (t, w) ∧ t ≠ tool)
    (hbad : parse_line bad = .error e) :
    search_tool_in_lines tool (pre ++ bad :: post) = .error e := by
  induction pre with
  | nil =>
    simp only [List.nil_append]
    unfold search_tool_in_lines
    rw [hbad]
  | cons l ls ih =>
    rcases hpre l (List.mem_cons_self l ls) with ⟨t, w, hok, hne⟩
    rw [List.cons_append]
    unfold search_tool_in_lines
    rw [hok]
    dsimp only
    rw [if_neg hne]
    exact ih (fun l hl => hpre l (List.mem_cons_of_mem _ hl))

theorem loadLines_reached_error {bad : List Char} {e : VErr}
    (acc : TVData) (pre post : List (List Char))
    (hpre : ∀ l ∈ pre, ∃ t w, parse_line l = .ok (t, w))
    (hbad : parse_line bad = .error e) :
    loadLines acc (pre ++ bad :: post) = .error e := by
  induction pre generalizing acc with
  | nil =>
    simp only [List.nil_append]
    unfold loadLines
    rw [hbad]
  | cons l ls ih =>
    rcases hpre l (List.mem_cons_self l ls) with ⟨t, w, hok⟩
    rw [List.cons_append]
    unfold loadLines
    rw [hok]
    exact ih _ (fun l hl => hpre l (List.mem_cons_of_mem _ hl))

/-! ### Lemmas about the upward directory walk -/

/-- A directory cleanly misses the tool: either it has no `.tool-versions`
file, or the file is searched without error and without a hit. -/
def dirMiss (tool : List Char) (d : Option (List Char)) : Prop :=
  d = none ∨ ∃ c, d = some c ∧ search_tool_in_lines tool (lines c) = .ok none

theorem walk_hit {tool c v : List Char} (pre post : List (Option (List Char)))
    (hpre : ∀ d ∈ pre, dirMiss tool d)
    (hc : search_tool_in_lines tool (lines c) = .ok (some v)) :
    get_version_from_current_dir tool (pre ++ some c :: post) = .ok (some v) := by
  induction pre with
  | nil =>
    simp only [List.nil_append]
    unfold get_version_from_current_dir
    rw [hc]
  | cons d ds ih =>
    rcases hpre d (List.mem_cons_self d ds) with h | ⟨c', hd, hs⟩
    · subst h
      rw [List.cons_append]
      unfold get_version_from_current_dir
      exact ih (fun d hd => hpre d (List.mem_cons_of_mem _ hd))
    · subst hd
      rw [List.cons_append]
      unfold get_version_from_current_dir
      rw [hs]
      exact ih (fun d hd => hpre d (List.mem_cons_of_mem _ hd))

theorem walk_miss {tool : List Char} {dirs : List (Option (List Char))}
    (h : ∀ d ∈ dirs, dirMiss tool d) :
    get_version_from_current_dir tool dirs = .ok none := by
  induction dirs with
  | nil => rfl
  | cons d ds ih =>
    rcases h d (List.mem_cons_self d ds) with hd | ⟨c, hd, hs⟩
    · subst hd
      unfold get_version_from_current_dir
      exact ih (fun d hd => h d (List.mem_cons_of_mem _ hd))
    · subst hd
      unfold get_version_from_current_dir
      rw [hs]
      exact ih (fun d hd => h d (List.mem_cons_of_mem _ hd))


/-! ### Lemmas about saving and reloading tool-versions files -/

/-- A savable token: nonempty, containing neither a space nor a newline. -/
def goodTok (t : List Char) : Prop :=
  t ≠ [] ∧ Char.ofNat 32 ∉ t ∧ Char.ofNat 10 ∉ t

/-- A savable map entry: both tool and version are savable tokens. -/
def goodPair (p : List Char × List Char) : Prop :=
  goodTok p.1 ∧ goodTok p.2

theorem joinCrlf_cons_cons (l l₂ : List Char) (rest : List (List Char)) :
    joinCrlf (l :: l₂ :: rest) =
      l ++ Char.ofNat 13 :: Char.ofNat 10 :: joinCrlf (l₂ :: rest) := rfl

theorem joinCrlf_cons_append (l x : List Char) (ls : List (List Char)) :
    joinCrlf (l :: (ls ++ [x])) =
      l ++ Char.ofNat 13 :: Char.ofNat 10 :: joinCrlf (ls ++ [x]) := by
  cases ls with
  | nil => rfl
  | cons y ys => rfl

theorem joinCrlf_append_empty (ls : List (List Char)) :
    joinCrlf (ls ++ [[]]) =
      ls.foldr (fun l acc => l ++ Char.ofNat 13 :: Char.ofNat 10 :: acc) [] := by
  induction ls with
  | nil => rfl
  | cons l ls ih =>
    rw [List.cons_append, joinCrlf_cons_append, ih, List.foldr_cons]

theorem lines_foldr_crlf {ls : List (List Char)}
    (h : ∀ l ∈ ls, Char.ofNat 10 ∉ l) :
    lines (ls.foldr (fun l acc => l ++ Char.ofNat 13 :: Char.ofNat 10 :: acc) []) = ls := by
  induction ls with
  | nil => rfl
  | cons l ls ih =>
    rw [List.foldr_cons, lines_crlf_line _ (h l (List.mem_cons_self l ls)),
      ih (fun l hl => h l (List.mem_cons_of_mem _ hl))]

theorem formatLine_no_newline {p : List Char × List Char} (h : goodPair p) :
    Char.ofNat 10 ∉ formatLine p := by
  intro hmem
  unfold formatLine at hmem
  rcases List.mem_append.mp hmem with h1 | h1
  · exact h.1.2.2 h1
  · rcases List.mem_cons.mp h1 with h2 | h2
    · simp at h2
    · exact h.2.2.2 h2

theorem lines_save_file {data : TVData} (h : ∀ p ∈ data, goodPair p) :
    lines (save_file data) = data.map formatLine := by
  unfold save_file
  rw [joinCrlf_append_empty, lines_foldr_crlf]
  intro l hl
  rcases List.mem_map.mp hl with ⟨p, hp, hfmt⟩
  rw [← hfmt]
  exact formatLine_no_newline (h p hp)

theorem parse_formatLine {p : List Char × List Char} (h : goodPair p) :
    parse_line (formatLine p) = .ok p := by
  have h2 : parse_line (p.1 ++ Char.ofNat 32 :: p.2) = .ok (p.1, p.2) :=
    parse_line_ok_iff.mpr ⟨rfl, h.1.2.1, h.1.1, h.2.1, h.2.2.1⟩
  exact h2

/-- The keys of a tool-versions map. -/
def tvKeys (m : TVData) : List (List Char) := m.map Prod.fst

theorem tvInsert_fresh {m : TVData} {k v : List Char} (h : k ∉ tvKeys m) :
    tvInsert m k v = m ++ [(k, v)] := by
  induction m with
  | nil => rfl
  | cons p rest ih =>
    have hk : p.1 ≠ k := by
      intro hc
      exact h (by simp [tvKeys, hc])
    cases p with
    | mk k' v' =>
      unfold tvInsert
      rw [if_neg hk]
      rw [ih (fun hc => h (by simp [tvKeys] at hc ⊢; exact Or.inr hc))]
      rfl

theorem tvLookup_insert_self (m : TVData) (k v : List Char) :
    tvLookup k (tvInsert m k v) = some v := by
  induction m with
  | nil => simp [tvInsert, tvLookup]
  | cons p rest ih =>
    cases p with
    | mk k' v' =>
      unfold tvInsert
      by_cases hk : k' = k
      · rw [if_pos hk]
        simp [tvLookup]
      · rw [if_neg hk]
        unfold tvLookup
        rw [if_neg hk]
        exact ih

theorem tvLookup_insert_other {m : TVData} {k v k' : List Char} (h : k' ≠ k) :
    tvLookup k' (tvInsert m k v) = tvLookup k' m := by
  induction m with
  | nil =>
    unfold tvInsert tvLookup
    rw [if_neg (fun hc => h hc.symm)]
    rfl
  | cons p rest ih =>
    cases p with
    | mk a b =>
      unfold tvInsert
      by_cases ha : a = k
      · rw [if_pos ha]
        have hak : a ≠ k' := by
          rw [ha]
          exact fun hc => h hc.symm
        unfold tvLookup
        rw [if_neg (fun hc => h hc.symm), if_neg hak]
      · rw [if_neg ha]
        unfold tvLookup
        by_cases ha' : a = k'
        · rw [if_pos ha', if_pos ha']
        · rw [if_neg ha', if_neg ha']
          exact ih

theorem tvKeys_insert_mem {m : TVData} {k : List Char} (v : List Char)
    (h : k ∈ tvKeys m) : tvKeys (tvInsert m k v) = tvKeys m := by
  induction m with
  | nil => cases h
  | cons p rest ih =>
    cases p with
    | mk a b =>
      unfold tvInsert
      by_cases ha : a = k
      · rw [if_pos ha]
        subst ha
        simp [tvKeys]
      · rw [if_neg ha]
        have hk : k ∈ tvKeys rest := by
          simp only [tvKeys, List.map_cons, List.mem_cons] at h
          rcases h with h | h
          · exact absurd h.symm ha
          · exact h
        simp only [tvKeys, List.map_cons]
        rw [show List.map Prod.fst (tvInsert rest k v) = tvKeys (tvInsert rest k v) from rfl,
          ih hk]
        rfl

theorem tvKeys_insert_fresh {m : TVData} {k : List Char} (v : List Char)
    (h : k ∉ tvKeys m) : tvKeys (tvInsert m k v) = tvKeys m ++ [k] := by
  rw [tvInsert_fresh h]
  simp [tvKeys]

theorem tvKeys_insert_nodup {m : TVData} {k v : List Char}
    (h : (tvKeys m).Nodup) : (tvKeys (tvInsert m k v)).Nodup := by
  by_cases hk : k ∈ tvKeys m
  · rw [tvKeys_insert_mem v hk]
    exact h
  · rw [tvKeys_insert_fresh v hk]
    simp [List.nodup_append, h, hk]

theorem mem_tvInsert {m : TVData} {k v : List Char} {p : List Char × List Char}
    (h : p ∈ tvInsert m k v) : p ∈ m ∨ p = (k, v) := by
  induction m with
  | nil =>
    simp [tvInsert] at h
    exact Or.inr h
  | cons q rest ih =>
    cases q with
    | mk a b =>
      unfold tvInsert at h
      by_cases ha : a = k
      · rw [if_pos ha] at h
        rcases List.mem_cons.mp h with h1 | h1
        · exact Or.inr h1
        · exact Or.inl (List.mem_cons_of_mem _ h1)
      · rw [if_neg ha] at h
        rcases List.mem_cons.mp h with h1 | h1
        · exact Or.inl (h1 ▸ List.mem_cons_self _ _)
        · rcases ih h1 with h2 | h2
          · exact Or.inl (List.mem_cons_of_mem _ h2)
          · exact Or.inr h2

theorem loadLines_map_formatLine (data : TVData) (acc : TVData)
    (hgood : ∀ p ∈ data, goodPair p) :
    loadLines acc (data.map formatLine) =
      .ok (data.foldl (fun m p => tvInsert m p.1 p.2) acc) := by
  induction data generalizing acc with
  | nil => rfl
  | cons p ps ih =>
    rw [List.map_cons]
    unfold loadLines
    rw [parse_formatLine (hgood p (List.mem_cons_self p ps))]
    rw [List.foldl_cons]
    exact ih _ (fun q hq => hgood q (List.mem_cons_of_mem _ hq))

theorem foldl_tvInsert_fresh (data : TVData) (acc : TVData)
    (hdisj : ∀ k ∈ tvKeys data, k ∉ tvKeys acc)
    (hnodup : (tvKeys data).Nodup) :
    data.foldl (fun m p => tvInsert m p.1 p.2) acc = acc ++ data := by
  induction data generalizing acc with
  | nil => simp
  | cons p ps ih =>
    have hp1 : p.1 ∉ tvKeys acc := hdisj p.1 (by simp [tvKeys])
    have hnodup' : p.1 ∉ tvKeys ps ∧ (tvKeys ps).Nodup := by
      have h := hnodup
      simp only [tvKeys, List.map_cons, List.nodup_cons] at h
      exact h
    have hdisj' : ∀ k ∈ tvKeys ps, k ∉ tvKeys (acc ++ [p]) := by
      intro k hk hc
      have hc' : k ∈ tvKeys acc ∨ k = p.1 := by simpa [tvKeys] using hc
      rcases hc' with hc' | hc'
      · exact hdisj k (by simp [tvKeys]; right; exact (by simpa [tvKeys] using hk)) hc'
      · exact hnodup'.1 (hc' ▸ hk)
    rw [List.foldl_cons]
    have heta : tvInsert acc p.1 p.2 = acc ++ [p] := tvInsert_fresh hp1
    rw [heta, ih (acc ++ [p]) hdisj' hnodup'.2]
    simp

theorem load_save_file {data : TVData} (hgood : ∀ p ∈ data, goodPair p)
    (hnodup : (tvKeys data).Nodup) :
    load_file (some (save_file data)) = .ok data := by
  show loadLines [] (lines (save_file data)) = .ok data
  rw [lines_save_file hgood, loadLines_map_formatLine data [] hgood,
    foldl_tvInsert_fresh data [] (by simp [tvKeys]) hnodup]
  rfl

theorem loadLines_good {acc : TVData} {ls : List (List Char)} {m : TVData}
    (h : loadLines acc ls = .ok m)
    (hacc : ∀ p ∈ acc, goodPair p)
    (hls : ∀ l ∈ ls, Char.ofNat 10 ∉ l) :
    ∀ p ∈ m, goodPair p := by
  induction ls generalizing acc with
  | nil =>
    unfold loadLines at h
    rcases h with ⟨⟩
    exact hacc
  | cons l rest ih =>
    unfold loadLines at h
    cases hp : parse_line l with
    | error e =>
      rw [hp] at h
      cases h
    | ok tv =>
      cases tv with
      | mk t v =>
        rw [hp] at h
        dsimp only at h
        have hl10 : Char.ofNat 10 ∉ l := hls l (List.mem_cons_self l rest)
        rcases parse_line_ok_iff.mp hp with ⟨hline, hsp, ht, hv, hspv⟩
        have hgp : goodPair (t, v) := by
          refine ⟨⟨ht, hsp, ?_⟩, ⟨hv, hspv, ?_⟩⟩
          · intro hc
            exact hl10 (hline ▸ List.mem_append.mpr (Or.inl hc))
          · intro hc
            exact hl10 (hline ▸ List.mem_append.mpr (Or.inr (List.mem_cons_of_mem _ hc)))
        refine ih h ?_ (fun l hl => hls l (List.mem_cons_of_mem _ hl))
        intro p hp'
        rcases mem_tvInsert hp' with h1 | h1
        · exact hacc p h1
        · subst h1
          exact hgp

theorem loadLines_nodup {acc : TVData} {ls : List (List Char)} {m : TVData}
    (h : loadLines acc ls = .ok m) (hacc : (tvKeys acc).Nodup) :
    (tvKeys m).Nodup := by
  induction ls generalizing acc with
  | nil =>
    unfold loadLines at h
    rcases h with ⟨⟩
    exact hacc
  | cons l rest ih =>
    unfold loadLines at h
    cases hp : parse_line l with
    | error e =>
      rw [hp] at h
      cases h
    | ok tv =>
      cases tv with
      | mk t v =>
        rw [hp] at h
        dsimp only at h
        exact ih h (tvKeys_insert_nodup hacc)

theorem load_file_good {file : Option (List Char)} {m : TVData}
    (h : load_file file = .ok m) :
    (∀ p ∈ m, goodPair p) ∧ (tvKeys m).Nodup := by
  cases file with
  | none =>
    unfold load_file at h
    rcases h with ⟨⟩
    refine ⟨?_, List.nodup_nil⟩
    intro p hp
    cases hp
  | some contents =>
    unfold load_file at h
    refine ⟨loadLines_good h ?_ (fun l hl => mem_lines_no_newline hl),
      loadLines_nodup h List.nodup_nil⟩
    intro p hp
    cases hp



/-! ## Claims about tool_versions.rs -/

/-- C1 counterexample: the claim states that when the environment variable is
unset, no local file defines the tool, and the global file has no entry, the
result is `Ok(None)` ("not configured ... not an error at this layer").  But
when the global tool-versions file does not exist, `search_tool_in_file`
fails at `File::open`, so `get_version` returns an error, not `Ok(None)`. -/
theorem claim_C1_counterexample :
    get_version [] "mytool" [none] none = .error .ioError := rfl

/-- C1 (amended): `get_version` cascades and stops at the first hit: a set
environment variable `ASDFW_<TOOL_UPPERCASED>_VERSION` wins; otherwise the
nearest directory in the upward walk whose `.tool-versions` file yields a
hit determines the result, regardless of farther ancestors and the global
file; otherwise, with every directory missing cleanly, the result is that of
searching the global file when it exists — and an error (not `Ok(None)`)
when the global file is missing. -/
theorem claim_C1 (env : List (String × String)) (tool : String)
    (dirs : List (Option (List Char))) (globalFile : Option (List Char)) :
    (∀ v, get_version_from_env env tool = some v →
      get_version env tool dirs globalFile = .ok (some v))
    ∧ (get_version_from_env env tool = none →
        (∀ pre c post v, dirs = pre ++ some c :: post →
          (∀ d ∈ pre, dirMiss tool.toList d) →
          search_tool_in_lines tool.toList (lines c) = .ok (some v) →
          get_version env tool dirs globalFile = .ok (some (String.mk v)))
        ∧ ((∀ d ∈ dirs, dirMiss tool.toList d) →
            (∀ g, globalFile = some g →
              get_version env tool dirs globalFile =
                (search_tool_in_lines tool.toList (lines g)).map
                  (fun r => r.map String.mk))
            ∧ (globalFile = none →
                get_version env tool dirs globalFile = .error .ioError))) := by
  refine ⟨?_, ?_⟩
  · intro v hv
    unfold get_version
    rw [hv]
  · intro henv
    refine ⟨?_, ?_⟩
    · intro pre c post v hdirs hpre hc
      unfold get_version
      rw [henv]
      dsimp only
      rw [hdirs, walk_hit pre post hpre hc]
    · intro hmiss
      refine ⟨?_, ?_⟩
      · intro g hg
        unfold get_version
        rw [henv]
        dsimp only
        rw [walk_miss hmiss]
        dsimp only
        rw [hg]
        unfold search_tool_in_file
        dsimp only
        cases hs : search_tool_in_lines tool.toList (lines g) with
        | error e => rfl
        | ok r => rfl
      · intro hg
        unfold get_version
        rw [henv]
        dsimp only
        rw [walk_miss hmiss]
        dsimp only
        rw [hg]
        rfl

/-- C1 witness: the spec's own example.  With the environment variable set,
its value wins; without it, the local file in the current directory wins
over the global file; with no local file anywhere, the global entry is
returned. -/
theorem claim_C1_witness :
    get_version [("ASDFW_MYTOOL_VERSION", "v9.9")] "mytool"
        [some ("mytool v1.3".toList)] (some ("mytool v1.2".toList)) =
      .ok (some "v9.9")
    ∧ get_version [] "mytool"
        [some ("mytool v1.3".toList)] (some ("mytool v1.2".toList)) =
      .ok (some "v1.3")
    ∧ get_version [] "mytool" [none] (some ("mytool v1.2".toList)) =
      .ok (some "v1.2") := by
  refine ⟨?_, ?_, ?_⟩
  · exact (claim_C1 [("ASDFW_MYTOOL_VERSION", "v9.9")] "mytool"
      [some ("mytool v1.3".toList)] (some ("mytool v1.2".toList))).1 "v9.9" (by rfl)
  · refine ((claim_C1 [] "mytool" [some ("mytool v1.3".toList)]
      (some ("mytool v1.2".toList))).2 (by rfl)).1 [] ("mytool v1.3".toList) []
      ("v1.3".toList) rfl ?_ (by rfl)
    intro d hd
    cases hd
  · have hm : ∀ d ∈ ([none] : List (Option (List Char))),
        dirMiss ("mytool".toList) d := by
      intro d hd
      exact Or.inl (List.mem_singleton.mp hd)
    have h := (((claim_C1 [] "mytool" [none]
      (some ("mytool v1.2".toList))).2 (by rfl)).2 hm).1 ("mytool v1.2".toList) rfl
    exact h.trans (by rfl)

/-- C7 counterexample: the claim calls any line whose version token contains
embedded whitespace malformed, and says a malformed line anywhere makes the
whole read fail.  But `parse_line` only rejects the space character, so a
version containing a tab parses fine; and `search_tool_in_file` returns as
soon as the tool is found, so a malformed line after the hit does not fail
the read. -/
theorem claim_C7_counterexample :
    parse_line ("a v1\t2".toList) = .ok ("a".toList, "v1\t2".toList)
    ∧ search_tool_in_lines ("tool1".toList)
        ["tool1 v1.2".toList, "bad".toList] = .ok (some ("v1.2".toList)) := by
  exact ⟨rfl, rfl⟩

/-- C7 (amended): a tool-versions line parses exactly when it is
`tool ++ " " ++ version` with the tool nonempty and space-free (only U+0020
counts) and the version nonempty and space-free; every parse failure is an
`InvalidVersionsLine` error carrying the line; and a malformed line fails
the read exactly when it is reached — always when loading the whole file,
and only before the first hit when searching for a tool. -/
theorem claim_C7 :
    (∀ line t v, parse_line line = .ok (t, v) ↔
      (line = t ++ Char.ofNat 32 :: v ∧ Char.ofNat 32 ∉ t ∧
        t ≠ [] ∧ v ≠ [] ∧ Char.ofNat 32 ∉ v))
    ∧ (∀ line e, parse_line line = .error e → e = .invalidLine line)
    ∧ (∀ (tool bad : List Char) (e : VErr) (pre post : List (List Char)),
        (∀ l ∈ pre, ∃ t w, parse_line l = .ok (t, w) ∧ t ≠ tool) →
        parse_line bad = .error e →
        search_tool_in_lines tool (pre ++ bad :: post) = .error e)
    ∧ (∀ (bad : List Char) (e : VErr) (acc : TVData) (pre post : List (List Char)),
        (∀ l ∈ pre, ∃ t w, parse_line l = .ok (t, w)) →
        parse_line bad = .error e →
        loadLines acc (pre ++ bad :: post) = .error e) := by
  refine ⟨?_, ?_, ?_, ?_⟩
  · intro line t v
    exact parse_line_ok_iff
  · intro line e h
    exact parse_line_error h
  · intro tool bad e pre post hpre hbad
    exact search_lines_reached_error pre post hpre hbad
  · intro bad e acc pre post hpre hbad
    exact loadLines_reached_error acc pre post hpre hbad

/-- C7 witness: the malformed line `"tool3  5.6"` (two spaces) aborts both a
search for a tool listed after it and a whole-file load, exactly as in the
repository's own test fixture. -/
theorem claim_C7_witness :
    search_tool_in_lines ("tool3".toList)
        ["tool1 v1.2".toList, "tool3  5.6".toList] =
      .error (.invalidLine ("tool3  5.6".toList))
    ∧ loadLines [] ["tool1 v1.2".toList, "tool3  5.6".toList] =
      .error (.invalidLine ("tool3  5.6".toList)) := by
  constructor
  · refine claim_C7.2.2.1 ("tool3".toList) ("tool3  5.6".toList) _
      ["tool1 v1.2".toList] [] ?_ (by rfl)
    intro l hl
    rw [List.mem_singleton.mp hl]
    exact ⟨"tool1".toList, "v1.2".toList, by rfl, by decide⟩
  · refine claim_C7.2.2.2 ("tool3  5.6".toList) _ []
      ["tool1 v1.2".toList] [] ?_ (by rfl)
    intro l hl
    rw [List.mem_singleton.mp hl]
    exact ⟨"tool1".toList, "v1.2".toList, by rfl⟩

/-- C6 counterexample: the claim quantifies over every tool and version, but
saving a tool name that itself contains a space produces a line that can no
longer be parsed, so the subsequent load fails instead of resolving the
saved tool. -/
theorem claim_C6_counterexample :
    set_tool_version none ("a b".toList) ("v1".toList) =
      .ok ("a b v1\r\n".toList)
    ∧ load_file (some ("a b v1\r\n".toList)) =
      .error (.invalidLine ("a b v1".toList)) := by
  exact ⟨rfl, rfl⟩

/-- C6 (amended): for every target tool-versions file that loads
successfully (a missing file treated as an empty record) and every tool and
version that are nonempty and contain neither a space nor a newline,
`set_tool_version` (the common worker of `save_local` and `save_global`)
upserts the pair and rewrites the whole file so that a subsequent load
returns exactly the updated map: the saved tool resolves to the new version
and every other tool to its prior version. -/
theorem claim_C6 (file : Option (List Char)) (tool ver : List Char)
    (m : TVData) (hload : load_file file = .ok m)
    (htool : goodTok tool) (hver : goodTok ver) :
    ∃ content, set_tool_version file tool ver = .ok content
      ∧ load_file (some content) = .ok (tvInsert m tool ver)
      ∧ tvLookup tool (tvInsert m tool ver) = some ver
      ∧ ∀ t, t ≠ tool → tvLookup t (tvInsert m tool ver) = tvLookup t m := by
  rcases load_file_good hload with ⟨hgood, hnodup⟩
  have hgood2 : ∀ p ∈ tvInsert m tool ver, goodPair p := by
    intro p hp
    rcases mem_tvInsert hp with h | h
    · exact hgood p h
    · subst h
      exact ⟨htool, hver⟩
  refine ⟨save_file (tvInsert m tool ver), ?_, ?_, ?_, ?_⟩
  · unfold set_tool_version
    rw [hload]
  · exact load_save_file hgood2 (tvKeys_insert_nodup hnodup)
  · exact tvLookup_insert_self m tool ver
  · intro t ht
    exact tvLookup_insert_other ht

/-- C6 witness: the spec's example.  Saving `tool1 → v1.4` into a file that
already defines `tool2` keeps `tool2` at its original version and resolves
`tool1` to `v1.4` after a reload. -/
theorem claim_C6_witness :
    ∃ content,
      set_tool_version (some ("tool2 v2.1.3\r\n".toList))
          ("tool1".toList) ("v1.4".toList) = .ok content
      ∧ load_file (some content) =
          .ok (tvInsert [("tool2".toList, "v2.1.3".toList)]
            ("tool1".toList) ("v1.4".toList))
      ∧ tvLookup ("tool1".toList)
          (tvInsert [("tool2".toList, "v2.1.3".toList)]
            ("tool1".toList) ("v1.4".toList)) = some ("v1.4".toList)
      ∧ ∀ t, t ≠ "tool1".toList →
          tvLookup t (tvInsert [("tool2".toList, "v2.1.3".toList)]
            ("tool1".toList) ("v1.4".toList)) =
          tvLookup t [("tool2".toList, "v2.1.3".toList)] :=
  claim_C6 (some ("tool2 v2.1.3\r\n".toList)) ("tool1".toList) ("v1.4".toList)
    [("tool2".toList, "v2.1.3".toList)] (by rfl)
    ⟨by decide, by decide, by decide⟩ ⟨by decide, by decide, by decide⟩



/-! ## shims.rs: shim types, extensions, resolve_command -/

/-- `ShimType` of `shims.rs`: a shim realized as a byte copy of the generic
launcher (`ExeShim`) or as a generated command script (`CmdShim`). -/
inductive ShimType where
  | exeShim
  | cmdShim
  deriving DecidableEq, Repr

/-- `ShimData`: the owning tool and the shim kind. -/
structure ShimData where
  tool : String
  tipe : ShimType
  deriving DecidableEq, Repr

/-- The extension table built in `Shims::new`:
`HashMap::from([("exe", ExeShim), ("cmd", CmdShim)])`.  Iteration order of
the hash map is arbitrary; every use below is order-independent. -/
def extensionsDB : List (String × ShimType) :=
  [("exe", ShimType.exeShim), ("cmd", ShimType.cmdShim)]

/-- Rust `Path::extension` on a file name: the part after the last dot,
provided the part before that dot is nonempty (`.bashrc` has none). -/
def extOf (name : List Char) : Option (List Char) :=
  match splitOnceChar (Char.ofNat 46) name.reverse with
  | none => none
  | some (revExt, revStem) => if revStem = [] then none else some revExt.reverse

/-- Rust `Path::file_stem` on a file name, complementing `extOf`. -/
def stemOf (name : List Char) : List Char :=
  match splitOnceChar (Char.ofNat 46) name.reverse with
  | none => name
  | some (_revExt, revStem) => if revStem = [] then name else revStem.reverse

/-- Rust `Path::with_extension` for a nonempty extension: replace the
existing extension by the given one, appending when the name has none. -/
def withExtension (name ext : List Char) : List Char :=
  stemOf name ++ Char.ofNat 46 :: ext

/-- Embeds the loop of `Shims::resolve_command` over the shim-directory
listing, in directory enumeration order: for each entry, first compare the
raw name, then compare the raw name with its extension replaced by each
known extension; return the first entry that matches. -/
def resolve_command (dir : List (List Char)) (exe : List Char) :
    Option (List Char) :=
  match dir with
  | [] => none
  | name :: rest =>
    if exe == name then some name
    else if (extensionsDB.map Prod.fst).any
        (fun ext => withExtension exe ext.toList == name) then some name
    else resolve_command rest exe

/-- The per-entry match test of `resolve_command`, written out once: the
entry equals the raw name, or equals the raw name with its extension
replaced by a known extension. -/
def matchesShim (exe name : List Char) : Bool :=
  exe == name ||
    (extensionsDB.map Prod.fst).any (fun ext => withExtension exe ext.toList == name)

/-! ## Claim C2 -/

/-- C2 counterexample: two parts of the claim fail.  First, an exact-name
match does not always win: with the directory listing enumerating `x.exe`
before `x`, resolving `x` returns `x.exe` even though a shim literally named
`x` exists.  Second, extension matching is not appending: `with_extension`
replaces an existing extension, so `hello.txt` resolves to `hello.exe`
although neither `hello.txt` nor `hello.txt.exe` nor `hello.txt.cmd` exists
in the listing. -/
theorem claim_C2_counterexample :
    resolve_command ["x.exe".toList, "x".toList] ("x".toList) =
      some ("x.exe".toList)
    ∧ ("x".toList) ∈ ["x.exe".toList, "x".toList]
    ∧ resolve_command ["hello.exe".toList] ("hello.txt".toList) =
      some ("hello.exe".toList)
    ∧ ("hello.txt".toList) ∉ ["hello.exe".toList]
    ∧ ("hello.txt.exe".toList) ∉ ["hello.exe".toList]
    ∧ ("hello.txt.cmd".toList) ∉ ["hello.exe".toList] := by
  refine ⟨rfl, by decide, rfl, by decide, by decide, by decide⟩

/-- C2 (amended): `resolve_command` scans the shim-directory listing in
enumeration order and returns the first entry that either equals the raw
name or equals the raw name with its extension replaced by one of the known
extensions (`exe`, `cmd`); when no entry matches it returns `none`.
Extension matching uses `Path::with_extension`, which replaces an existing
extension and appends one exactly when the raw name has no dot-extension;
exact-name preference over extension matching holds only within a single
directory entry, not across the listing. -/
theorem claim_C2 :
    (∀ dir exe, resolve_command dir exe = dir.find? (matchesShim exe))
    ∧ (∀ exe ext, Char.ofNat 46 ∉ exe →
        withExtension exe ext = exe ++ Char.ofNat 46 :: ext) := by
  constructor
  · intro dir exe
    induction dir with
    | nil => rfl
    | cons name rest ih =>
      rw [List.find?_cons]
      show (if exe == name then some name
        else if (extensionsDB.map Prod.fst).any
          (fun ext => withExtension exe ext.toList == name) then some name
        else resolve_command rest exe) = _
      by_cases h1 : (exe == name) = true
      · rw [if_pos h1]
        have hm : matchesShim exe name = true := by
          unfold matchesShim
          rw [h1, Bool.true_or]
        rw [hm]
      · rw [if_neg h1]
        by_cases h2 : ((extensionsDB.map Prod.fst).any
            (fun ext => withExtension exe ext.toList == name)) = true
        · rw [if_pos h2]
          have hm : matchesShim exe name = true := by
            unfold matchesShim
            rw [h2, Bool.or_true]
          rw [hm]
        · rw [if_neg h2]
          have hm : matchesShim exe name = false := by
            unfold matchesShim
            simp only [Bool.not_eq_true] at h1 h2
            rw [h1, h2]
            rfl
          rw [hm]
          exact ih
  · intro exe ext h46
    unfold withExtension stemOf
    rw [splitOnceChar_eq_none.mpr (by simpa using h46)]

/-- C2 witness: the repository's own test table.  `hello.exe` resolves
exactly, `hello` resolves by appending `.exe` (its name has no dot), and
`what.exe` is not found. -/
theorem claim_C2_witness :
    resolve_command ["hello.exe".toList, "world.exe".toList]
        ("hello.exe".toList) = some ("hello.exe".toList)
    ∧ resolve_command ["hello.exe".toList, "world.exe".toList]
        ("hello".toList) = some ("hello.exe".toList)
    ∧ resolve_command ["hello.exe".toList, "world.exe".toList]
        ("what.exe".toList) = none
    ∧ withExtension ("hello".toList) ("exe".toList) =
        "hello".toList ++ Char.ofNat 46 :: "exe".toList := by
  refine ⟨?_, ?_, ?_, ?_⟩
  · rw [claim_C2.1]
    rfl
  · rw [claim_C2.1]
    rfl
  · rw [claim_C2.1]
    rfl
  · exact claim_C2.2 ("hello".toList) ("exe".toList) (by decide)



/-! ## shims.rs: the persisted shim database (save_db / load_db) -/

/-- The shim database, `HashMap<OsString, ShimData>`, embedded as an
association list with unique keys. -/
abbrev ShimsDB := List (String × ShimData)

/-- Database lookup. -/
def dbLookup (k : String) : ShimsDB → Option ShimData
  | [] => none
  | (k2, v) :: rest => if k2 = k then some v else dbLookup k rest

/-- Database insertion with `HashMap::insert` semantics: replace the value
at an existing key, otherwise add the pair. -/
def dbInsert (db : ShimsDB) (k : String) (v : ShimData) : ShimsDB :=
  match db with
  | [] => [(k, v)]
  | (k2, v2) :: rest =>
    if k2 = k then (k, v) :: rest else (k2, v2) :: dbInsert rest k v

/-- One token of the serialized blob.  The `bincode` encoding of the source
is length-prefixed: a map is its entry count followed by the entries, a
string is its length followed by its characters, an enum is its variant
index. -/
inductive Tok where
  | nat (n : Nat)
  | ch (c : Char)
  deriving DecidableEq, Repr

/-- Serialize a string: length prefix, then the characters. -/
def encodeStr (s : String) : List Tok :=
  .nat s.toList.length :: s.toList.map Tok.ch

/-- Serialize a `ShimType` as its variant index. -/
def encodeShimType : ShimType → Tok
  | .exeShim => .nat 0
  | .cmdShim => .nat 1

/-- Serialize one map entry: the command name, then the `ShimData` fields in
declaration order. -/
def encodeEntry (p : String × ShimData) : List Tok :=
  encodeStr p.1 ++ encodeStr p.2.tool ++ [encodeShimType p.2.tipe]

/-- Embeds `bincode::serialize` of the database: entry count, then the
entries in iteration order. -/
def encodeDb (db : ShimsDB) : List Tok :=
  .nat db.length :: db.foldr (fun p acc => encodeEntry p ++ acc) []

/-- Read `n` characters off the token stream. -/
def readChars : Nat → List Tok → Option (List Char × List Tok)
  | 0, ts => some ([], ts)
  | n + 1, .ch c :: ts => (readChars n ts).map (fun p => (c :: p.1, p.2))
  | _ + 1, _ => none

/-- Decode a length-prefixed string. -/
def decodeStr : List Tok → Option (String × List Tok)
  | .nat n :: ts => (readChars n ts).map (fun p => (String.mk p.1, p.2))
  | _ => none

/-- Decode a `ShimType` variant index. -/
def decodeShimType : List Tok → Option (ShimType × List Tok)
  | .nat 0 :: ts => some (.exeShim, ts)
  | .nat 1 :: ts => some (.cmdShim, ts)
  | _ => none

/-- Decode one map entry. -/
def decodeEntry (ts : List Tok) : Option ((String × ShimData) × List Tok) :=
  match decodeStr ts with
  | none => none
  | some (k, ts1) =>
    match decodeStr ts1 with
    | none => none
    | some (tool, ts2) =>
      match decodeShimType ts2 with
      | none => none
      | some (tipe, ts3) => some ((k, ⟨tool, tipe⟩), ts3)

/-- Decode `n` map entries. -/
def decodeEntries : Nat → List Tok → Option (ShimsDB × List Tok)
  | 0, ts => some ([], ts)
  | n + 1, ts =>
    match decodeEntry ts with
    | none => none
    | some (p, ts1) => (decodeEntries n ts1).map (fun q => (p :: q.1, q.2))

/-- Embeds `bincode::deserialize` of the database: read the entry count and
that many entries (`bincode` 1.x does not reject trailing bytes). -/
def decodeDb (ts : List Tok) : Option ShimsDB :=
  match ts with
  | .nat n :: rest => (decodeEntries n rest).map Prod.fst
  | _ => none

/-- Embeds `Shims::save_db`: serialize and overwrite the database file. -/
def save_db (db : ShimsDB) : List Tok := encodeDb db

/-- Errors of `Shims::load_db`: the `fs::read` failure for a missing file,
and the deserialization failure for an undecodable blob. -/
inductive DbErr where
  | ioError
  | deserializeError
  deriving DecidableEq, Repr

/-- Embeds `Shims::load_db`: read the database file and deserialize it. -/
def load_db (file : Option (List Tok)) : Except DbErr ShimsDB :=
  match file with
  | none => .error .ioError
  | some blob =>
    match decodeDb blob with
    | none => .error .deserializeError
    | some db => .ok db

theorem readChars_encode (l : List Char) (rest : List Tok) :
    readChars l.length (l.map Tok.ch ++ rest) = some (l, rest) := by
  induction l with
  | nil => rfl
  | cons c cs ih =>
    show (readChars cs.length (cs.map Tok.ch ++ rest)).map _ = _
    rw [ih]
    rfl

theorem decodeStr_encode (s : String) (rest : List Tok) :
    decodeStr (encodeStr s ++ rest) = some (s, rest) := by
  show (readChars s.toList.length (s.toList.map Tok.ch ++ rest)).map _ = _
  rw [readChars_encode]
  rfl

theorem decodeShimType_encode (t : ShimType) (rest : List Tok) :
    decodeShimType (encodeShimType t :: rest) = some (t, rest) := by
  cases t <;> rfl

theorem decodeEntry_encode (p : String × ShimData) (rest : List Tok) :
    decodeEntry (encodeEntry p ++ rest) = some (p, rest) := by
  unfold decodeEntry encodeEntry
  rw [List.append_assoc, List.append_assoc, decodeStr_encode]
  dsimp only
  rw [decodeStr_encode]
  dsimp only
  rw [List.singleton_append, decodeShimType_encode]

theorem decodeEntries_encode (db : ShimsDB) (rest : List Tok) :
    decodeEntries db.length (db.foldr (fun p acc => encodeEntry p ++ acc) rest) =
      some (db, rest) := by
  induction db generalizing rest with
  | nil => rfl
  | cons p ps ih =>
    show decodeEntries (ps.length + 1)
      (encodeEntry p ++ ps.foldr (fun p acc => encodeEntry p ++ acc) rest) = _
    unfold decodeEntries
    rw [decodeEntry_encode]
    dsimp only
    rw [ih rest]
    rfl

theorem decodeDb_encodeDb (db : ShimsDB) : decodeDb (encodeDb db) = some db := by
  show (decodeEntries db.length (db.foldr (fun p acc => encodeEntry p ++ acc) [])).map
      Prod.fst = some db
  rw [decodeEntries_encode]
  rfl

/-! ## Claim C5 -/

/-- C5: saving any shim database (any finite map with unique command-name
keys) and loading it back returns exactly the same database: the same keys
with the same owning tool and shim kind, nothing added or lost. -/
theorem claim_C5 (db : ShimsDB) (_hkeys : (db.map Prod.fst).Nodup) :
    load_db (some (save_db db)) = .ok db := by
  show (match decodeDb (encodeDb db) with
    | none => Except.error DbErr.deserializeError
    | some db => Except.ok db) = .ok db
  rw [decodeDb_encodeDb]

/-- C5 witness: the database of the repository's `test_data` fixture
(five entries, two owned by the same tool) survives a save/load roundtrip. -/
theorem claim_C5_witness :
    ((([("kubectl.exe", ShimData.mk "kubectl" .exeShim),
        ("docker.exe", ShimData.mk "docker" .exeShim),
        ("minikube.exe", ShimData.mk "minikube" .exeShim),
        ("kubectx.exe", ShimData.mk "kubectx" .exeShim),
        ("kubens.exe", ShimData.mk "kubectx" .exeShim)] : ShimsDB).map
          Prod.fst).Nodup)
    ∧ load_db (some (save_db
        [("kubectl.exe", ShimData.mk "kubectl" .exeShim),
        ("docker.exe", ShimData.mk "docker" .exeShim),
        ("minikube.exe", ShimData.mk "minikube" .exeShim),
        ("kubectx.exe", ShimData.mk "kubectx" .exeShim),
        ("kubens.exe", ShimData.mk "kubectx" .exeShim)])) =
      .ok [("kubectl.exe", ShimData.mk "kubectl" .exeShim),
        ("docker.exe", ShimData.mk "docker" .exeShim),
        ("minikube.exe", ShimData.mk "minikube" .exeShim),
        ("kubectx.exe", ShimData.mk "kubectx" .exeShim),
        ("kubens.exe", ShimData.mk "kubectx" .exeShim)] :=
  ⟨by decide, claim_C5 _ (by decide)⟩



/-! ## shims.rs: create_shims -/

/-- Content of a file in the shims directory: a byte copy of the generic
launcher executable, or a generated command script whose text embeds the
shim's own name and its owning tool. -/
inductive ShimContent where
  | exeCopy
  | cmdScript (exe tool : String)
  deriving DecidableEq, Repr

/-- The filesystem state `create_shims` reads and writes: the listing of
the shims directory (`none` when the directory itself does not exist) and
the shim database file. -/
structure ShimsState where
  shimsDir : Option (List (String × ShimContent))
  dbFile : Option (List Tok)
  deriving DecidableEq, Repr

/-- Errors of `create_shims`: `remove_dir_all` failing during cleanup,
`load_db` failing afterwards, or a file write into a missing directory. -/
inductive CsErr where
  | cleanupError
  | loadDb (e : DbErr)
  | writeError
  deriving DecidableEq, Repr

/-- Overwrite-or-create a file in a directory listing. -/
def dirInsert (d : List (String × ShimContent)) (k : String) (v : ShimContent) :
    List (String × ShimContent) :=
  match d with
  | [] => [(k, v)]
  | (k2, v2) :: rest =>
    if k2 = k then (k, v) :: rest else (k2, v2) :: dirInsert rest k v

/-- The write loop of `create_shims`: for each database entry write the
shim file, a launcher copy for `ExeShim` and a generated script for
`CmdShim`. -/
def writeShims (d : List (String × ShimContent)) : ShimsDB →
    List (String × ShimContent)
  | [] => d
  | (exe, data) :: rest =>
    writeShims (dirInsert d exe (match data.tipe with
      | .exeShim => .exeCopy
      | .cmdShim => .cmdScript exe data.tool)) rest

/-- The part of `create_shims` after the optional cleanup: load the
database and write every shim. -/
def create_shims_write (s : ShimsState) : ShimsState × Except CsErr Unit :=
  match load_db s.dbFile with
  | .error e => (s, .error (.loadDb e))
  | .ok db =>
    match s.shimsDir with
    | none => (s, .error .writeError)
    | some d => (⟨some (writeShims d db), s.dbFile⟩, .ok ())

/-- Embeds `Shims::create_shims`: with `cleanup` set, delete the whole
shims directory and recreate it empty (an error if it does not exist), and
only then load the database and write the shims.  The returned state is the
filesystem state at return, also on the error paths. -/
def create_shims (cleanup : Bool) (s : ShimsState) :
    ShimsState × Except CsErr Unit :=
  if cleanup then
    match s.shimsDir with
    | none => (s, .error .cleanupError)
    | some _ => create_shims_write ⟨some [], s.dbFile⟩
  else create_shims_write s

/-! ## Claim C10 -/

/-- C10: `create_shims(true)` deletes and recreates the shims directory
before loading the database, so whenever loading subsequently fails
(missing or undecodable database file) the call returns an error with the
shims directory already emptied: the previously existing shims are gone and
are not restored. -/
theorem claim_C10 (s : ShimsState) (d : List (String × ShimContent))
    (e : DbErr) (hdir : s.shimsDir = some d)
    (hload : load_db s.dbFile = .error e) :
    create_shims true s = (⟨some [], s.dbFile⟩, .error (.loadDb e)) := by
  unfold create_shims
  rw [if_pos rfl, hdir]
  dsimp only
  unfold create_shims_write
  dsimp only
  rw [hload]

/-- C10 witness: a shims directory holding one shim and a missing database
file; `create_shims(true)` fails the load but has already emptied the
directory. -/
theorem claim_C10_witness :
    create_shims true ⟨some [("hello.exe", ShimContent.exeCopy)], none⟩ =
      (⟨some [], none⟩, .error (.loadDb .ioError)) :=
  claim_C10 ⟨some [("hello.exe", ShimContent.exeCopy)], none⟩
    [("hello.exe", ShimContent.exeCopy)] .ioError rfl rfl


/-! ## shims.rs: generate_db_from_installed_tools -/

/-- One version entry under a tool's installation directory: its directory
name, whether the entry is itself a directory, and for each bin-directory
name the files directly inside `<version>/<bin_dir>` (`none` when that
directory does not exist, making `fs::read_dir` fail). -/
structure VersionDir where
  name : String
  isDir : Bool
  binFiles : List (String × List String)
  deriving DecidableEq, Repr

/-- One tool directory under the installs root. -/
structure ToolDir where
  name : String
  versions : List VersionDir
  deriving DecidableEq, Repr

/-- The listing of `<version>/<bin_dir>`. -/
def binFilesOf (v : VersionDir) (bd : String) : Option (List String) :=
  (v.binFiles.find? (fun p => p.1 == bd)).map Prod.snd

/-- Embeds `requires_shim`: scan the extension table and return the shim
kind of the first entry equal to the file's extension. -/
def requires_shim (extension : Option (List Char)) : Option ShimType :=
  (extensionsDB.find? (fun p => some p.1.toList == extension)).map Prod.snd

/-- Errors of the scanner: a command name produced by two distinct tools,
or a configured bin directory missing from an installed version (the
`fs::read_dir(path)?` failure). -/
inductive GenErr where
  | conflict (exe tool oldTool : String)
  | missingBinDir (tool version binDir : String)
  deriving DecidableEq, Repr

/-- The innermost loop of `generate_db_from_installed_tools` over the files
of one bin directory: skip files without a shimmable extension, insert the
rest, and fail when the name was already owned by a different tool. -/
def scanFiles (tool : String) (files : List String) (db : ShimsDB) :
    Except GenErr ShimsDB :=
  match files with
  | [] => .ok db
  | f :: rest =>
    match requires_shim (extOf f.toList) with
    | none => scanFiles tool rest db
    | some tipe =>
      let old := dbLookup f db
      let db1 := dbInsert db f ⟨tool, tipe⟩
      match old with
      | some v =>
        if v.tool ≠ tool then .error (.conflict f tool v.tool)
        else scanFiles tool rest db1
      | none => scanFiles tool rest db1

/-- The loop over a plugin's configured bin directories for one version. -/
def scanBinDirs (tool : String) (v : VersionDir) (binDirs : List String)
    (db : ShimsDB) : Except GenErr ShimsDB :=
  match binDirs with
  | [] => .ok db
  | bd :: rest =>
    match binFilesOf v bd with
    | none => .error (.missingBinDir tool v.name bd)
    | some files =>
      match scanFiles tool files db with
      | .error e => .error e
      | .ok db1 => scanBinDirs tool v rest db1

/-- The loop over a tool's version entries; entries that are not
directories are skipped. -/
def scanVersions (tool : String) (binDirs : List String)
    (versions : List VersionDir) (db : ShimsDB) : Except GenErr ShimsDB :=
  match versions with
  | [] => .ok db
  | v :: rest =>
    if v.isDir then
      match scanBinDirs tool v binDirs db with
      | .error e => .error e
      | .ok db1 => scanVersions tool binDirs rest db1
    else scanVersions tool binDirs rest db

/-- The outer loop over the tool directories of the installs root.
`plugins` gives each tool's resolved bin-directory list (`Plugin::new`
always succeeds with the default config when no plugin file exists; the
source loads the plugin inside the version loop, but the result does not
depend on the version). -/
def scanTools (plugins : String → List String) :
    List ToolDir → ShimsDB → Except GenErr ShimsDB
  | [], db => .ok db
  | t :: rest, db =>
    match scanVersions t.name (plugins t.name) t.versions db with
    | .error e => .error e
    | .ok db1 => scanTools plugins rest db1

/-- Embeds `Shims::generate_db_from_installed_tools`: scan the whole
installation tree into a fresh database. -/
def generate_db_from_installed_tools (plugins : String → List String)
    (tools : List ToolDir) : Except GenErr ShimsDB :=
  scanTools plugins tools []

/-- All `(tool, file)` pairs the scan visits, in scan order: every file of
every configured bin directory of every version directory of every tool. -/
def occurrences (plugins : String → List String) (tools : List ToolDir) :
    List (String × String) :=
  tools.flatMap (fun t => t.versions.flatMap (fun v =>
    if v.isDir then
      (plugins t.name).flatMap
        (fun bd => ((binFilesOf v bd).getD []).map (fun f => (t.name, f)))
    else []))

/-- Tool `t` produces the shimmable command name `f`: some installed
version directory of `t` has `f`, with a shimmable extension, directly in
a configured bin directory. -/
def produces (plugins : String → List String) (tools : List ToolDir)
    (t f : String) : Bool :=
  (requires_shim (extOf f.toList)).isSome &&
    decide ((t, f) ∈ occurrences plugins tools)

/-- Every configured bin directory exists in every installed version
directory: the condition under which the scan hits no `read_dir` error. -/
def allBinDirsExist (plugins : String → List String)
    (tools : List ToolDir) : Bool :=
  tools.all (fun t => t.versions.all (fun v =>
    !v.isDir || (plugins t.name).all (fun bd => (binFilesOf v bd).isSome)))

/-- Proof vehicle: the scan flattened to one loop over `(tool, file)`
pairs, with the same per-file body as `scanFiles`. -/
def scanOccs : List (String × String) → ShimsDB → Except GenErr ShimsDB
  | [], db => .ok db
  | (tool, f) :: rest, db =>
    match requires_shim (extOf f.toList) with
    | none => scanOccs rest db
    | some tipe =>
      let old := dbLookup f db
      let db1 := dbInsert db f ⟨tool, tipe⟩
      match old with
      | some v =>
        if v.tool ≠ tool then .error (.conflict f tool v.tool)
        else scanOccs rest db1
      | none => scanOccs rest db1

theorem scanOccs_cons (tool f : String) (rest : List (String × String))
    (db : ShimsDB) :
    scanOccs ((tool, f) :: rest) db =
      match requires_shim (extOf f.toList) with
      | none => scanOccs rest db
      | some tipe =>
        match dbLookup f db with
        | some v =>
          if v.tool ≠ tool then .error (.conflict f tool v.tool)
          else scanOccs rest (dbInsert db f ⟨tool, tipe⟩)
        | none => scanOccs rest (dbInsert db f ⟨tool, tipe⟩) := rfl

theorem scanFiles_cons (tool f : String) (rest : List String) (db : ShimsDB) :
    scanFiles tool (f :: rest) db =
      match requires_shim (extOf f.toList) with
      | none => scanFiles tool rest db
      | some tipe =>
        match dbLookup f db with
        | some v =>
          if v.tool ≠ tool then .error (.conflict f tool v.tool)
          else scanFiles tool rest (dbInsert db f ⟨tool, tipe⟩)
        | none => scanFiles tool rest (dbInsert db f ⟨tool, tipe⟩) := rfl

theorem scanOccs_append (xs ys : List (String × String)) (db : ShimsDB) :
    scanOccs (xs ++ ys) db =
      match scanOccs xs db with
      | .error e => .error e
      | .ok db1 => scanOccs ys db1 := by
  induction xs generalizing db with
  | nil => rfl
  | cons o rest ih =>
    cases o with
    | mk tool f =>
      rw [List.cons_append, scanOccs_cons, scanOccs_cons]
      cases requires_shim (extOf f.toList) with
      | none => exact ih db
      | some tipe =>
        dsimp only
        cases dbLookup f db with
        | none => exact ih (dbInsert db f ⟨tool, tipe⟩)
        | some v =>
          dsimp only
          by_cases hv : v.tool ≠ tool
          · rw [if_pos hv, if_pos hv]
          · rw [if_neg hv, if_neg hv]
            exact ih (dbInsert db f ⟨tool, tipe⟩)

theorem scanFiles_eq_scanOccs (tool : String) (files : List String)
    (db : ShimsDB) :
    scanFiles tool files db =
      scanOccs (files.map (fun f => (tool, f))) db := by
  induction files generalizing db with
  | nil => rfl
  | cons f rest ih =>
    rw [List.map_cons, scanFiles_cons, scanOccs_cons]
    cases requires_shim (extOf f.toList) with
    | none => exact ih db
    | some tipe =>
      dsimp only
      cases dbLookup f db with
      | none => exact ih (dbInsert db f ⟨tool, tipe⟩)
      | some v =>
        dsimp only
        by_cases hv : v.tool ≠ tool
        · rw [if_pos hv, if_pos hv]
        · rw [if_neg hv, if_neg hv]
          exact ih (dbInsert db f ⟨tool, tipe⟩)

theorem scanBinDirs_eq_scanOccs (tool : String) (v : VersionDir)
    (binDirs : List String) (db : ShimsDB)
    (hb : ∀ bd ∈ binDirs, (binFilesOf v bd).isSome = true) :
    scanBinDirs tool v binDirs db =
      scanOccs (binDirs.flatMap
        (fun bd => ((binFilesOf v bd).getD []).map (fun f => (tool, f)))) db := by
  induction binDirs generalizing db with
  | nil => rfl
  | cons bd rest ih =>
    rcases Option.isSome_iff_exists.mp (hb bd (List.mem_cons_self bd rest)) with
      ⟨files, hfiles⟩
    rw [List.flatMap_cons]
    unfold scanBinDirs
    rw [hfiles]
    dsimp only
    rw [scanOccs_append]
    dsimp only [Option.getD_some]
    rw [scanFiles_eq_scanOccs]
    cases scanOccs (files.map (fun f => (tool, f))) db with
    | error e => rfl
    | ok db1 => exact ih db1 (fun bd hbd => hb bd (List.mem_cons_of_mem _ hbd))

theorem scanVersions_eq_scanOccs (tool : String) (binDirs : List String)
    (versions : List VersionDir) (db : ShimsDB)
    (hv : ∀ v ∈ versions, v.isDir = true →
      ∀ bd ∈ binDirs, (binFilesOf v bd).isSome = true) :
    scanVersions tool binDirs versions db =
      scanOccs (versions.flatMap (fun v =>
        if v.isDir then
          binDirs.flatMap
            (fun bd => ((binFilesOf v bd).getD []).map (fun f => (tool, f)))
        else [])) db := by
  induction versions generalizing db with
  | nil => rfl
  | cons v rest ih =>
    rw [List.flatMap_cons]
    unfold scanVersions
    by_cases hd : v.isDir = true
    · rw [if_pos hd, if_pos hd, scanOccs_append,
        scanBinDirs_eq_scanOccs tool v binDirs db
          (hv v (List.mem_cons_self v rest) hd)]
      cases scanOccs (binDirs.flatMap
          (fun bd => ((binFilesOf v bd).getD []).map (fun f => (tool, f)))) db with
      | error e => rfl
      | ok db1 =>
        exact ih db1 (fun v hvm => hv v (List.mem_cons_of_mem _ hvm))
    · rw [if_neg hd, if_neg hd, List.nil_append]
      exact ih db (fun v hvm => hv v (List.mem_cons_of_mem _ hvm))

theorem allBinDirsExist_spec {plugins : String → List String}
    {tools : List ToolDir} (h : allBinDirsExist plugins tools = true) :
    ∀ t ∈ tools, ∀ v ∈ t.versions, v.isDir = true →
      ∀ bd ∈ plugins t.name, (binFilesOf v bd).isSome = true := by
  intro t ht v hv hd bd hbd
  unfold allBinDirsExist at h
  rw [List.all_eq_true] at h
  have h1 := h t ht
  rw [List.all_eq_true] at h1
  have h2 := h1 v hv
  rw [hd] at h2
  simp only [Bool.not_true, Bool.false_or] at h2
  exact List.all_eq_true.mp h2 bd hbd

theorem generate_eq_scanOccs {plugins : String → List String}
    {tools : List ToolDir} (hex : allBinDirsExist plugins tools = true) :
    generate_db_from_installed_tools plugins tools =
      scanOccs (occurrences plugins tools) [] := by
  unfold generate_db_from_installed_tools occurrences
  have hall := allBinDirsExist_spec hex
  have haux : ∀ (ts : List ToolDir) (db : ShimsDB),
      (∀ t ∈ ts, ∀ v ∈ t.versions, v.isDir = true →
        ∀ bd ∈ plugins t.name, (binFilesOf v bd).isSome = true) →
      scanTools plugins ts db =
        scanOccs (ts.flatMap (fun t => t.versions.flatMap (fun v =>
          if v.isDir then
            (plugins t.name).flatMap
              (fun bd => ((binFilesOf v bd).getD []).map (fun f => (t.name, f)))
          else []))) db := by
    intro ts
    induction ts with
    | nil =>
      intro db hts
      rfl
    | cons t rest ih =>
      intro db hts
      rw [List.flatMap_cons]
      unfold scanTools
      rw [scanOccs_append, scanVersions_eq_scanOccs t.name (plugins t.name)
        t.versions db (hts t (List.mem_cons_self t rest))]
      cases scanOccs (t.versions.flatMap (fun v =>
          if v.isDir then
            (plugins t.name).flatMap
              (fun bd => ((binFilesOf v bd).getD []).map (fun f => (t.name, f)))
          else [])) db with
      | error e => rfl
      | ok db1 => exact ih db1 (fun t htm => hts t (List.mem_cons_of_mem _ htm))
  exact haux tools [] hall

/-! ### Association-list lemmas for the shim database -/

theorem dbLookup_mem {db : ShimsDB} {k : String} {v : ShimData}
    (h : dbLookup k db = some v) : (k, v) ∈ db := by
  induction db with
  | nil => cases h
  | cons p rest ih =>
    cases p with
    | mk k2 v2 =>
      unfold dbLookup at h
      by_cases hk : k2 = k
      · rw [if_pos hk] at h
        rcases h with ⟨⟩
        subst hk
        exact List.mem_cons_self _ _
      · rw [if_neg hk] at h
        exact List.mem_cons_of_mem _ (ih h)

theorem dbLookup_insert_self (db : ShimsDB) (k : String) (v : ShimData) :
    dbLookup k (dbInsert db k v) = some v := by
  induction db with
  | nil => simp [dbInsert, dbLookup]
  | cons p rest ih =>
    cases p with
    | mk k2 v2 =>
      unfold dbInsert
      by_cases hk : k2 = k
      · rw [if_pos hk]
        unfold dbLookup
        rw [if_pos rfl]
      · rw [if_neg hk]
        unfold dbLookup
        rw [if_neg hk]
        exact ih

theorem dbLookup_insert_other {db : ShimsDB} {k k2 : String} (v : ShimData)
    (h : k2 ≠ k) : dbLookup k2 (dbInsert db k v) = dbLookup k2 db := by
  induction db with
  | nil =>
    unfold dbInsert dbLookup
    rw [if_neg (fun hc => h hc.symm)]
    rfl
  | cons p rest ih =>
    cases p with
    | mk a b =>
      unfold dbInsert
      by_cases ha : a = k
      · rw [if_pos ha]
        have hak : a ≠ k2 := by
          rw [ha]
          exact fun hc => h hc.symm
        unfold dbLookup
        rw [if_neg (fun hc => h hc.symm), if_neg hak]
      · rw [if_neg ha]
        unfold dbLookup
        by_cases ha2 : a = k2
        · rw [if_pos ha2, if_pos ha2]
        · rw [if_neg ha2, if_neg ha2]
          exact ih

theorem mem_dbInsert {db : ShimsDB} {k : String} {v : ShimData}
    {p : String × ShimData} (h : p ∈ dbInsert db k v) : p ∈ db ∨ p = (k, v) := by
  induction db with
  | nil =>
    simp [dbInsert] at h
    exact Or.inr h
  | cons q rest ih =>
    cases q with
    | mk a b =>
      unfold dbInsert at h
      by_cases ha : a = k
      · rw [if_pos ha] at h
        rcases List.mem_cons.mp h with h1 | h1
        · exact Or.inr h1
        · exact Or.inl (List.mem_cons_of_mem _ h1)
      · rw [if_neg ha] at h
        rcases List.mem_cons.mp h with h1 | h1
        · exact Or.inl (h1 ▸ List.mem_cons_self _ _)
        · rcases ih h1 with h2 | h2
          · exact Or.inl (List.mem_cons_of_mem _ h2)
          · exact Or.inr h2

theorem dbInsert_fresh {db : ShimsDB} {k : String} (v : ShimData)
    (h : k ∉ db.map Prod.fst) : dbInsert db k v = db ++ [(k, v)] := by
  induction db with
  | nil => rfl
  | cons p rest ih =>
    cases p with
    | mk a b =>
      have ha : a ≠ k := by
        intro hc
        exact h (by rw [List.map_cons, hc]; exact List.mem_cons_self _ _)
      unfold dbInsert
      rw [if_neg ha,
        ih (fun hc => h (by rw [List.map_cons]; exact List.mem_cons_of_mem _ hc))]
      rfl

theorem dbKeys_insert_mem {db : ShimsDB} {k : String} (v : ShimData)
    (h : k ∈ db.map Prod.fst) :
    (dbInsert db k v).map Prod.fst = db.map Prod.fst := by
  induction db with
  | nil => cases h
  | cons p rest ih =>
    cases p with
    | mk a b =>
      unfold dbInsert
      by_cases ha : a = k
      · rw [if_pos ha]
        subst ha
        simp
      · rw [if_neg ha]
        have hk : k ∈ rest.map Prod.fst := by
          simp only [List.map_cons, List.mem_cons] at h
          rcases h with h | h
          · exact absurd h.symm ha
          · exact h
        simp only [List.map_cons]
        rw [ih hk]

theorem dbKeys_insert_nodup {db : ShimsDB} {k : String} {v : ShimData}
    (h : (db.map Prod.fst).Nodup) :
    ((dbInsert db k v).map Prod.fst).Nodup := by
  by_cases hk : k ∈ db.map Prod.fst
  · rw [dbKeys_insert_mem v hk]
    exact h
  · rw [dbInsert_fresh v hk]
    simp [List.nodup_append, h, hk]

/-! ### Scanner invariants -/

/-- The invariant of the growing database: keys are unique and every entry's
kind matches its name's extension while its owner genuinely produces it. -/
def dbInv (plugins : String → List String) (tools : List ToolDir)
    (db : ShimsDB) : Prop :=
  (db.map Prod.fst).Nodup ∧
    ∀ p ∈ db, requires_shim (extOf p.1.toList) = some p.2.tipe ∧
      produces plugins tools p.2.tool p.1 = true

theorem produces_iff {plugins : String → List String} {tools : List ToolDir}
    {t f : String} :
    produces plugins tools t f = true ↔
      (requires_shim (extOf f.toList)).isSome = true ∧
        (t, f) ∈ occurrences plugins tools := by
  unfold produces
  rw [Bool.and_eq_true, decide_eq_true_iff]

theorem dbInv_insert {plugins : String → List String} {tools : List ToolDir}
    {db : ShimsDB} {tool f : String} {tipe : ShimType}
    (hinv : dbInv plugins tools db)
    (hreq : requires_shim (extOf f.toList) = some tipe)
    (hmem : (tool, f) ∈ occurrences plugins tools) :
    dbInv plugins tools (dbInsert db f ⟨tool, tipe⟩) := by
  refine ⟨dbKeys_insert_nodup hinv.1, ?_⟩
  intro p hp
  rcases mem_dbInsert hp with h | h
  · exact hinv.2 p h
  · subst h
    refine ⟨hreq, produces_iff.mpr ⟨by rw [hreq]; rfl, hmem⟩⟩

theorem scanOccs_ok_spec {plugins : String → List String}
    {tools : List ToolDir} :
    ∀ {occs : List (String × String)} {db db' : ShimsDB},
    scanOccs occs db = .ok db' →
    (∀ o ∈ occs, o ∈ occurrences plugins tools) →
    dbInv plugins tools db →
    dbInv plugins tools db' ∧
      (∀ f v, dbLookup f db = some v → dbLookup f db' = some v) ∧
      (∀ t f k, (t, f) ∈ occs → requires_shim (extOf f.toList) = some k →
        dbLookup f db' = some ⟨t, k⟩) ∧
      (∀ f v, dbLookup f db' = some v →
        dbLookup f db = some v ∨ (v.tool, f) ∈ occs) := by
  intro occs
  induction occs with
  | nil =>
    intro db db' h hsub hinv
    rcases h with ⟨⟩
    refine ⟨hinv, fun f v hv => hv, ?_, fun f v hv => Or.inl hv⟩
    intro t f k hmem
    cases hmem
  | cons o rest ih =>
    intro db db' h hsub hinv
    cases o with
    | mk tool f =>
      rw [scanOccs_cons] at h
      cases hreq : requires_shim (extOf f.toList) with
      | none =>
        rw [hreq] at h
        dsimp only at h
        rcases ih h (fun o ho => hsub o (List.mem_cons_of_mem _ ho)) hinv with
          ⟨hinv2, hpres, hcompl, hsound⟩
        refine ⟨hinv2, hpres, ?_, ?_⟩
        · intro t f2 k hmem hk
          rcases List.mem_cons.mp hmem with hm | hm
          · cases hm
            rw [hk] at hreq
            cases hreq
          · exact hcompl t f2 k hm hk
        · intro f2 v hv
          rcases hsound f2 v hv with h1 | h1
          · exact Or.inl h1
          · exact Or.inr (List.mem_cons_of_mem _ h1)
      | some tipe =>
        rw [hreq] at h
        dsimp only at h
        have hmemO : (tool, f) ∈ occurrences plugins tools :=
          hsub (tool, f) (List.mem_cons_self _ _)
        cases hold : dbLookup f db with
        | none =>
          rw [hold] at h
          dsimp only at h
          have hinv1 : dbInv plugins tools (dbInsert db f ⟨tool, tipe⟩) :=
            dbInv_insert hinv hreq hmemO
          rcases ih h (fun o ho => hsub o (List.mem_cons_of_mem _ ho)) hinv1 with
            ⟨hinv2, hpres, hcompl, hsound⟩
          refine ⟨hinv2, ?_, ?_, ?_⟩
          · intro f2 v hv
            by_cases hf : f2 = f
            · subst hf
              rw [hold] at hv
              cases hv
            · exact hpres f2 v (by rw [dbLookup_insert_other _ hf]; exact hv)
          · intro t f2 k hmem hk
            rcases List.mem_cons.mp hmem with hm | hm
            · cases hm
              rw [hreq] at hk
              rcases hk with ⟨⟩
              exact hpres f ⟨tool, tipe⟩ (dbLookup_insert_self db f _)
            · exact hcompl t f2 k hm hk
          · intro f2 v hv
            rcases hsound f2 v hv with h1 | h1
            · by_cases hf : f2 = f
              · subst hf
                rw [dbLookup_insert_self] at h1
                rcases h1 with ⟨⟩
                exact Or.inr (List.mem_cons_self _ _)
              · rw [dbLookup_insert_other _ hf] at h1
                exact Or.inl h1
            · exact Or.inr (List.mem_cons_of_mem _ h1)
        | some v =>
          rw [hold] at h
          dsimp only at h
          by_cases hv : v.tool ≠ tool
          · rw [if_pos hv] at h
            cases h
          · rw [if_neg hv] at h
            push_neg at hv
            have hvmem : (f, v) ∈ db := dbLookup_mem hold
            have htipe : tipe = v.tipe := by
              have h2 := (hinv.2 (f, v) hvmem).1
              rw [hreq] at h2
              rcases h2 with ⟨⟩
              rfl
            have hveq : (⟨tool, tipe⟩ : ShimData) = v := by
              cases v with
              | mk tl tp =>
                dsimp only at hv htipe
                rw [hv, htipe]
            rw [hveq] at h
            have hinv1 : dbInv plugins tools (dbInsert db f v) := by
              rw [← hveq]
              exact dbInv_insert hinv hreq hmemO
            rcases ih h (fun o ho => hsub o (List.mem_cons_of_mem _ ho)) hinv1 with
              ⟨hinv2, hpres, hcompl, hsound⟩
            refine ⟨hinv2, ?_, ?_, ?_⟩
            · intro f2 v2 hv2
              by_cases hf : f2 = f
              · subst hf
                rw [hold] at hv2
                rcases hv2 with ⟨⟩
                exact hpres f2 v (dbLookup_insert_self db f2 v)
              · exact hpres f2 v2 (by rw [dbLookup_insert_other _ hf]; exact hv2)
            · intro t f2 k hmem hk
              rcases List.mem_cons.mp hmem with hm | hm
              · cases hm
                rw [hreq] at hk
                rcases hk with ⟨⟩
                rw [hveq]
                exact hpres f v (dbLookup_insert_self db f v)
              · exact hcompl t f2 k hm hk
            · intro f2 v2 hv2
              rcases hsound f2 v2 hv2 with h1 | h1
              · by_cases hf : f2 = f
                · subst hf
                  rw [dbLookup_insert_self] at h1
                  rcases h1 with ⟨⟩
                  refine Or.inr ?_
                  rw [← hv]
                  exact List.mem_cons_self _ _
                · rw [dbLookup_insert_other _ hf] at h1
                  exact Or.inl h1
              · exact Or.inr (List.mem_cons_of_mem _ h1)

theorem scanOccs_error_spec {plugins : String → List String}
    {tools : List ToolDir} :
    ∀ {occs : List (String × String)} {db : ShimsDB} {e : GenErr},
    scanOccs occs db = .error e →
    (∀ o ∈ occs, o ∈ occurrences plugins tools) →
    dbInv plugins tools db →
    ∃ f t t2, e = .conflict f t t2 ∧ t ≠ t2 ∧
      produces plugins tools t f = true ∧ produces plugins tools t2 f = true := by
  intro occs
  induction occs with
  | nil =>
    intro db e h hsub hinv
    cases h
  | cons o rest ih =>
    intro db e h hsub hinv
    cases o with
    | mk tool f =>
      rw [scanOccs_cons] at h
      cases hreq : requires_shim (extOf f.toList) with
      | none =>
        rw [hreq] at h
        dsimp only at h
        exact ih h (fun o ho => hsub o (List.mem_cons_of_mem _ ho)) hinv
      | some tipe =>
        rw [hreq] at h
        dsimp only at h
        have hmemO : (tool, f) ∈ occurrences plugins tools :=
          hsub (tool, f) (List.mem_cons_self _ _)
        cases hold : dbLookup f db with
        | none =>
          rw [hold] at h
          dsimp only at h
          exact ih h (fun o ho => hsub o (List.mem_cons_of_mem _ ho))
            (dbInv_insert hinv hreq hmemO)
        | some v =>
          rw [hold] at h
          dsimp only at h
          by_cases hv : v.tool ≠ tool
          · rw [if_pos hv] at h
            rcases h with ⟨⟩
            have hvmem : (f, v) ∈ db := dbLookup_mem hold
            refine ⟨f, tool, v.tool, rfl, fun hc => hv hc.symm, ?_, ?_⟩
            · exact produces_iff.mpr ⟨by rw [hreq]; rfl, hmemO⟩
            · exact (hinv.2 (f, v) hvmem).2
          · rw [if_neg hv] at h
            exact ih h (fun o ho => hsub o (List.mem_cons_of_mem _ ho))
              (dbInv_insert hinv hreq hmemO)

/-! ## Claim C3 -/

/-- C3: over a tree in which every configured bin directory exists,
`generate_db_from_installed_tools` fails with a conflict error naming the
filename and two genuinely conflicting tools whenever two distinct tools
produce the same shimmable command name; and when no two distinct tools
conflict it succeeds with a database holding one entry per produced name,
owned by its unique producer with the kind determined by the extension —
the same filename produced repeatedly by one tool across versions or bin
directories is silently kept as that single entry. -/
theorem claim_C3 (plugins : String → List String) (tools : List ToolDir)
    (hex : allBinDirsExist plugins tools = true) :
    ((∃ f t1 t2, t1 ≠ t2 ∧ produces plugins tools t1 f = true ∧
        produces plugins tools t2 f = true) →
      ∃ f t t2, generate_db_from_installed_tools plugins tools =
          .error (.conflict f t t2) ∧ t ≠ t2 ∧
        produces plugins tools t f = true ∧
        produces plugins tools t2 f = true)
    ∧ ((∀ f t1 t2, produces plugins tools t1 f = true →
        produces plugins tools t2 f = true → t1 = t2) →
      ∃ db, generate_db_from_installed_tools plugins tools = .ok db
        ∧ (db.map Prod.fst).Nodup
        ∧ (∀ t f k, produces plugins tools t f = true →
            requires_shim (extOf f.toList) = some k →
            dbLookup f db = some ⟨t, k⟩)
        ∧ (∀ f v, dbLookup f db = some v →
            produces plugins tools v.tool f = true)) := by
  have hInvNil : dbInv plugins tools [] := by
    refine ⟨List.nodup_nil, ?_⟩
    intro p hp
    cases hp
  have hsub : ∀ o ∈ occurrences plugins tools, o ∈ occurrences plugins tools :=
    fun o ho => ho
  constructor
  · rintro ⟨f, t1, t2, hne, h1, h2⟩
    rw [generate_eq_scanOccs hex]
    cases hres : scanOccs (occurrences plugins tools) [] with
    | ok db =>
      exfalso
      rcases scanOccs_ok_spec hres hsub hInvNil with ⟨hinv2, hpres, hcompl, hsound⟩
      rcases produces_iff.mp h1 with ⟨hsome1, hmem1⟩
      rcases produces_iff.mp h2 with ⟨hsome2, hmem2⟩
      rcases Option.isSome_iff_exists.mp hsome1 with ⟨k, hk⟩
      have e1 := hcompl t1 f k hmem1 hk
      have e2 := hcompl t2 f k hmem2 hk
      rw [e1] at e2
      rcases e2 with ⟨⟩
      exact hne rfl
    | error e =>
      rcases scanOccs_error_spec hres hsub hInvNil with
        ⟨f2, ta, tb, he, hneq, hpa, hpb⟩
      subst he
      exact ⟨f2, ta, tb, rfl, hneq, hpa, hpb⟩
  · intro huniq
    rw [generate_eq_scanOccs hex]
    cases hres : scanOccs (occurrences plugins tools) [] with
    | error e =>
      exfalso
      rcases scanOccs_error_spec hres hsub hInvNil with
        ⟨f2, ta, tb, he, hneq, hpa, hpb⟩
      exact hneq (huniq f2 ta tb hpa hpb)
    | ok db =>
      rcases scanOccs_ok_spec hres hsub hInvNil with ⟨hinv2, hpres, hcompl, hsound⟩
      refine ⟨db, rfl, hinv2.1, ?_, ?_⟩
      · intro t f k hp hk
        exact hcompl t f k (produces_iff.mp hp).2 hk
      · intro f v hv
        exact (hinv2.2 (f, v) (dbLookup_mem hv)).2

/-- Installation tree of the repository's conflict test: `kubectl` also
ships a `kubens.exe`, which `kubectx` ships too. -/
def exampleConflictTools : List ToolDir :=
  [⟨"kubectl", [⟨"1.2.4", true, [("bin", ["kubens.exe"])]⟩]⟩,
   ⟨"kubectx", [⟨"0.12", true, [("bin", ["kubectx.exe", "kubens.exe"])]⟩]⟩]

/-- Installation tree with one tool whose two versions both ship
`kubectl.exe`: a same-tool duplicate, not a conflict. -/
def exampleSuccessTools : List ToolDir :=
  [⟨"kubectl", [⟨"1.2.4", true, [("bin", ["kubectl.exe"])]⟩,
                ⟨"1.1", true, [("bin", ["kubectl.exe"])]⟩]⟩]

/-- C3 witness: the conflict tree makes the scan fail with a conflict
between two genuinely conflicting tools, and the same-tool duplicate tree
succeeds with a single `kubectl.exe` entry owned by `kubectl`. -/
theorem claim_C3_witness :
    (∃ f t t2, generate_db_from_installed_tools (fun _ => ["bin"])
        exampleConflictTools = .error (.conflict f t t2) ∧ t ≠ t2 ∧
      produces (fun _ => ["bin"]) exampleConflictTools t f = true ∧
      produces (fun _ => ["bin"]) exampleConflictTools t2 f = true)
    ∧ ∃ db, generate_db_from_installed_tools (fun _ => ["bin"])
          exampleSuccessTools = .ok db
        ∧ dbLookup "kubectl.exe" db = some ⟨"kubectl", ShimType.exeShim⟩ := by
  constructor
  · exact (claim_C3 (fun _ => ["bin"]) exampleConflictTools (by decide)).1
      ⟨"kubens.exe", "kubectl", "kubectx", by decide, by decide, by decide⟩
  · have huniq : ∀ f t1 t2,
        produces (fun _ => ["bin"]) exampleSuccessTools t1 f = true →
        produces (fun _ => ["bin"]) exampleSuccessTools t2 f = true →
        t1 = t2 := by
      intro f t1 t2 h1 h2
      have h1m := (produces_iff.mp h1).2
      have h2m := (produces_iff.mp h2).2
      have hocc : occurrences (fun _ => ["bin"]) exampleSuccessTools =
          [("kubectl", "kubectl.exe"), ("kubectl", "kubectl.exe")] := rfl
      rw [hocc] at h1m h2m
      simp only [List.mem_cons, List.not_mem_nil, or_false, or_self,
        Prod.mk.injEq] at h1m h2m
      rw [h1m.1, h2m.1]
    rcases (claim_C3 (fun _ => ["bin"]) exampleSuccessTools (by decide)).2
        huniq with ⟨db, hok, hnodup, hcompl, hsound⟩
    exact ⟨db, hok,
      hcompl "kubectl" "kubectl.exe" ShimType.exeShim (by decide) (by decide)⟩

/-! ## plugins/plugin.rs: plugin configuration -/

/-- `EnvVarValue`: a literal value or a path relative to the install
root. -/
inductive EnvVarValue where
  | value (s : String)
  | relativeInstPath (p : String)
  deriving DecidableEq, Repr

/-- `EnvVar`: one declared environment variable. -/
structure EnvVar where
  name : String
  value : EnvVarValue
  overriding_name : Option String
  deriving DecidableEq, Repr

/-- `PluginConfig`. -/
structure PluginConfig where
  bin_dirs : List String
  env_vars : List EnvVar
  deriving DecidableEq, Repr

/-- `Plugin`: a tool name and its resolved configuration. -/
structure Plugin where
  name : String
  config : PluginConfig
  deriving DecidableEq, Repr

/-- `PluginConfig::default_bin_dirs`. -/
def PluginConfig.default_bin_dirs : List String := ["bin"]

/-- A parsed plugin configuration document as serde sees it: each field is
present or absent (absent fields get the serde defaults). -/
structure RawPluginDoc where
  bin_dirs : Option (List String)
  env_vars : Option (List EnvVar)
  deriving DecidableEq, Repr

/-- The state of the plugin configuration file in the plugin directory. -/
inductive PluginFile where
  | missing
  | invalid
  | parsed (doc : RawPluginDoc)
  deriving DecidableEq, Repr

/-- The hard failure of parsing a malformed plugin configuration. -/
inductive PluginErr where
  | parseError
  deriving DecidableEq, Repr

/-- Embeds `Plugin::new`: a missing file yields the default configuration
(`bin_dirs = ["bin"]`, `env_vars = []`); a file that parses gets serde's
defaults for absent fields, and an explicitly empty `bin_dirs` list is then
replaced by the default; a malformed file is a hard error. -/
def Plugin.new (name : String) (file : PluginFile) : Except PluginErr Plugin :=
  match file with
  | .missing => .ok ⟨name, ⟨PluginConfig.default_bin_dirs, []⟩⟩
  | .invalid => .error .parseError
  | .parsed doc =>
    let config : PluginConfig :=
      ⟨doc.bin_dirs.getD PluginConfig.default_bin_dirs, doc.env_vars.getD []⟩
    if config.bin_dirs.isEmpty then
      .ok ⟨name, ⟨PluginConfig.default_bin_dirs, config.env_vars⟩⟩
    else .ok ⟨name, config⟩

/-! ## executable_context.rs -/

/-- A filesystem abstraction sufficient for `ExecutableContext`: which
paths (as component lists) exist as plain files and which as
directories. -/
structure SimpleFs where
  files : List (List String)
  dirs : List (List String)
  deriving DecidableEq, Repr

/-- Rust `Path::exists`: true for files and directories alike. -/
def pathExists (fs : SimpleFs) (p : List String) : Bool :=
  fs.files.contains p || fs.dirs.contains p

/-- `ExecutableContext`: the ephemeral context built per invocation. -/
structure ExecutableContext where
  cmd_name : String
  plugin : Plugin
  version : String
  tool_install_root : List String
  deriving DecidableEq, Repr

/-- Embeds `ExecutableContext::new`: compute
`installs_root/tool_name/version` and return `None` when that path does not
exist — the source tests `tool_install_root.exists()`, not
`is_dir()`. -/
def ExecutableContext.new (cmd_name : String) (plugin : Plugin)
    (version : String) (tools_install_dir : List String) (fs : SimpleFs) :
    Option ExecutableContext :=
  let tool_install_root := tools_install_dir ++ [plugin.name, version]
  if pathExists fs tool_install_root then
    some ⟨cmd_name, plugin, version, tool_install_root⟩
  else none

/-- Render a component path as a Windows path string. -/
def pathToString (p : List String) : String :=
  String.intercalate "\\" p

/-- Embeds `ExecutableContext::parse_env_var`: the overriding process
variable wins when declared and set; otherwise a literal value is used
verbatim and a relative value is joined onto the install root. -/
def parse_env_var (ec : ExecutableContext) (procEnv : List (String × String))
    (ev : EnvVar) : String × String :=
  let parse_value : EnvVarValue → String := fun v =>
    match v with
    | .value s => s
    | .relativeInstPath p => pathToString (ec.tool_install_root ++ [p])
  let value :=
    match ev.overriding_name with
    | none => parse_value ev.value
    | some var_name =>
      match lookupEnv procEnv var_name with
      | some v => v
      | none => parse_value ev.value
  (ev.name, value)

/-- Embeds `ExecutableContext::env_vars_to_envs`: one pair per declared
variable, in declaration order. -/
def env_vars_to_envs (ec : ExecutableContext)
    (procEnv : List (String × String)) (env_vars : List EnvVar) :
    List (String × String) :=
  env_vars.map (fun ev => parse_env_var ec procEnv ev)

/-- The value the claim prescribes for one `EnvVarSpec`, written from the
spec's words: the current value of `overriding_env_name` when that variable
is set in the calling process, otherwise the literal string, or the install
root joined with the relative path. -/
def claimEnvValue (ec : ExecutableContext) (procEnv : List (String × String))
    (ev : EnvVar) : String :=
  match ev.overriding_name.bind (fun n => lookupEnv procEnv n) with
  | some v => v
  | none =>
    match ev.value with
    | .value s => s
    | .relativeInstPath p => pathToString (ec.tool_install_root ++ [p])

/-! ## Claim C4 -/

/-- C4 counterexample: the claim says `new` returns `None` exactly when
`installs_root/tool/version` is not an existing directory.  But the source
checks `exists()`, which is also true for a plain file: with
`installs/mytool/1.0` existing as a file and not as a directory, `new`
returns `Some`. -/
theorem claim_C4_counterexample :
    (ExecutableContext.new "cmd.exe" ⟨"mytool", ⟨["bin"], []⟩⟩ "1.0"
        ["installs"] ⟨[["installs", "mytool", "1.0"]], []⟩).isSome = true
    ∧ (SimpleFs.mk [["installs", "mytool", "1.0"]] []).dirs.contains
        ["installs", "mytool", "1.0"] = false := by
  exact ⟨rfl, rfl⟩

/-- C4 (amended): `ExecutableContext::new` returns `None` exactly when the
path `installs_root/tool/version` does not exist at all (a file there
counts as existing, `exists()` being the test), and returns a context with
that path as its install root whenever the path exists, regardless of
whether the specific command exists under any configured bin
directory. -/
theorem claim_C4 (cmd_name : String) (plugin : Plugin) (version : String)
    (tools_install_dir : List String) (fs : SimpleFs) :
    ((ExecutableContext.new cmd_name plugin version tools_install_dir
        fs).isSome =
      pathExists fs (tools_install_dir ++ [plugin.name, version]))
    ∧ (∀ ec, ExecutableContext.new cmd_name plugin version tools_install_dir
        fs = some ec →
      ec.cmd_name = cmd_name ∧ ec.plugin = plugin ∧ ec.version = version ∧
        ec.tool_install_root = tools_install_dir ++ [plugin.name, version]) := by
  unfold ExecutableContext.new
  by_cases h : pathExists fs (tools_install_dir ++ [plugin.name, version]) = true
  · rw [if_pos h, h]
    refine ⟨rfl, ?_⟩
    intro ec hec
    rcases hec with ⟨⟩
    exact ⟨rfl, rfl, rfl, rfl⟩
  · rw [if_neg h]
    simp only [Bool.not_eq_true] at h
    rw [h]
    refine ⟨rfl, ?_⟩
    intro ec hec
    cases hec

/-- C4 witness: with `installs/mytool/0.1` existing as a directory the
context is built; with an empty filesystem it is not; the command name
plays no role in either. -/
theorem claim_C4_witness :
    (ExecutableContext.new "cmd.exe" ⟨"mytool", ⟨["bin"], []⟩⟩ "0.1"
        ["installs"] ⟨[], [["installs", "mytool", "0.1"]]⟩).isSome = true
    ∧ (ExecutableContext.new "cmd.exe" ⟨"mytool", ⟨["bin"], []⟩⟩ "0.1"
        ["installs"] ⟨[], []⟩).isSome = false := by
  constructor
  · exact (claim_C4 "cmd.exe" ⟨"mytool", ⟨["bin"], []⟩⟩ "0.1" ["installs"]
      ⟨[], [["installs", "mytool", "0.1"]]⟩).1.trans (by rfl)
  · exact (claim_C4 "cmd.exe" ⟨"mytool", ⟨["bin"], []⟩⟩ "0.1" ["installs"]
      ⟨[], []⟩).1.trans (by rfl)

/-! ## Claim C8 -/

/-- C8: building the environment produces exactly one `(name, value)` pair
per declared `EnvVarSpec`, in the declared order, where the value is the
current value of the overriding variable when it is declared and set in the
calling process, and otherwise the literal string for a `Literal` value or
the install root joined with the relative path for a
`RelativeToInstallRoot` value. -/
theorem claim_C8 (ec : ExecutableContext) (procEnv : List (String × String))
    (env_vars : List EnvVar) :
    env_vars_to_envs ec procEnv env_vars =
      env_vars.map (fun ev => (ev.name, claimEnvValue ec procEnv ev)) := by
  unfold env_vars_to_envs
  induction env_vars with
  | nil => rfl
  | cons ev rest ih =>
    rw [List.map_cons, List.map_cons, ih]
    have hhead : parse_env_var ec procEnv ev =
        (ev.name, claimEnvValue ec procEnv ev) := by
      unfold parse_env_var claimEnvValue
      cases ho : ev.overriding_name with
      | none => rfl
      | some n =>
        rw [Option.some_bind']
    rw [hhead]

/-! ## Claim C9 -/

/-- C9: every successful `Plugin::new` yields a nonempty `bin_dirs`; a
missing configuration file yields exactly the default configuration; an
omitted or explicitly empty `bin_dirs` yields exactly `["bin"]`; and an
omitted `env_vars` yields the empty list. -/
theorem claim_C9 (name : String) (file : PluginFile) :
    (∀ p, Plugin.new name file = .ok p → p.config.bin_dirs ≠ [])
    ∧ (file = .missing →
        Plugin.new name file = .ok ⟨name, ⟨["bin"], []⟩⟩)
    ∧ (∀ ev, file = .parsed ⟨none, ev⟩ →
        ∃ p, Plugin.new name file = .ok p ∧ p.config.bin_dirs = ["bin"])
    ∧ (∀ bd, file = .parsed ⟨some (bd :: []), none⟩ ∨
          file = .parsed ⟨some [], none⟩ ∨ file = .parsed ⟨none, none⟩ →
        ∃ p, Plugin.new name file = .ok p ∧ p.config.env_vars = [])
    ∧ (∀ ev, file = .parsed ⟨some [], ev⟩ →
        ∃ p, Plugin.new name file = .ok p ∧ p.config.bin_dirs = ["bin"]) := by
  refine ⟨?_, ?_, ?_, ?_, ?_⟩
  · intro p hp
    cases file with
    | missing =>
      unfold Plugin.new at hp
      rcases hp with ⟨⟩
      simp [PluginConfig.default_bin_dirs]
    | invalid =>
      unfold Plugin.new at hp
      cases hp
    | parsed doc =>
      unfold Plugin.new at hp
      dsimp only at hp
      by_cases he : (doc.bin_dirs.getD PluginConfig.default_bin_dirs).isEmpty = true
      · rw [if_pos he] at hp
        rcases hp with ⟨⟩
        simp [PluginConfig.default_bin_dirs]
      · rw [if_neg he] at hp
        rcases hp with ⟨⟩
        intro hc
        dsimp only at hc
        rw [hc] at he
        exact he rfl
  · intro h
    subst h
    rfl
  · intro ev h
    subst h
    exact ⟨⟨name, ⟨["bin"], ev.getD []⟩⟩, rfl, rfl⟩
  · intro bd h
    rcases h with h | h | h
    · subst h
      exact ⟨⟨name, ⟨[bd], []⟩⟩, rfl, rfl⟩
    · subst h
      exact ⟨⟨name, ⟨["bin"], []⟩⟩, rfl, rfl⟩
    · subst h
      exact ⟨⟨name, ⟨["bin"], []⟩⟩, rfl, rfl⟩
  · intro ev h
    subst h
    exact ⟨⟨name, ⟨["bin"], ev.getD []⟩⟩, rfl, rfl⟩

/-- C9 witness: the default cases at concrete inputs — a missing file, an
omitted `bin_dirs`, and an explicitly empty `bin_dirs`. -/
theorem claim_C9_witness :
    Plugin.new "mytool" .missing = .ok ⟨"mytool", ⟨["bin"], []⟩⟩
    ∧ (∃ p, Plugin.new "mytool" (.parsed ⟨none, none⟩) = .ok p ∧
        p.config.bin_dirs = ["bin"])
    ∧ (∃ p, Plugin.new "mytool" (.parsed ⟨some [], some []⟩) = .ok p ∧
        p.config.bin_dirs = ["bin"]) := by
  refine ⟨?_, ?_, ?_⟩
  · exact (claim_C9 "mytool" .missing).2.1 rfl
  · exact (claim_C9 "mytool" (.parsed ⟨none, none⟩)).2.2.1 none rfl
  · exact (claim_C9 "mytool" (.parsed ⟨some [], some []⟩)).2.2.2.2 (some []) rfl

end Asdfw
